import Mathlib

/-!
Verification of the passage-splitting tool (`splitter.py`): link extraction
from the macro micro-language, bounded subgraph selection, and the
topological ordering of the passage link graph.

Python dictionaries (insertion-ordered, unique keys) are modelled as
association lists `List (String × List String)`; dict-valued sets of names
are insertion-ordered `List String` without duplicates.  Loops are modelled
with explicit fuel that provably suffices, so every definition is executable.
-/

namespace Splitter


abbrev Name := String

/-- A link graph: passage name to ordered set of outgoing link targets.
Models the Python `dict[str, dict[str, None]]`. -/
abbrev Graph := List (Name × List Name)

/-- The keys of an association list, in order (Python `dict.keys()`). -/
def keys (g : Graph) : List Name := g.map Prod.fst

/-- The keys as a multiset, for permutation bookkeeping. -/
def mkeys (g : Graph) : Multiset Name := (keys g : Multiset Name)

/-- Lookup of the first entry with the given key (Python `d[k]`, as Option). -/
def lookupG : Graph → Name → Option (List Name)
  | [], _ => none
  | (k, v) :: rest, n => if k = n then some v else lookupG rest n

/-- Python `k in d`. -/
def containsKey (g : Graph) (n : Name) : Bool := (lookupG g n).isSome

/-- Python `del d[k]` (removes the first entry with the key; on
association lists with unique keys this is exact). -/
def eraseKey : Graph → Name → Graph
  | [], _ => []
  | (k, v) :: rest, n => if k = n then rest else (k, v) :: eraseKey rest n

/-- Overwrite the value of an existing key in place (position kept). -/
def setVal : Graph → Name → List Name → Graph
  | [], _, _ => []
  | (k, v) :: rest, n, w => if k = n then (k, w) :: rest else (k, v) :: setVal rest n w

/-- Python `d[k] = v`: overwrite in place if the key exists, else append. -/
def dinsert (d : Graph) (k : Name) (v : List Name) : Graph :=
  if containsKey d k then setVal d k v else d ++ [(k, v)]

/-- Delete a list of keys in order (`for name in ready: del link_from[name]`). -/
def removeKeys (lf : Graph) (ns : List Name) : Graph := ns.foldl eraseKey lf

/-! ### `order_graph` (splitter.py lines 258-317) -/

/-- One assignment `link_from[link][name] = None` of the inverse-graph build:
record `source` as an incoming link of `target`.  A dict key assignment keeps
an already present key in place, hence the membership guard.  (In Python a
missing `target` key would raise `KeyError`; the graphs passed to
`order_graph` are closed under their own edges.) -/
def addSource (lf : Graph) (target source : Name) : Graph :=
  match lookupG lf target with
  | none => lf
  | some w => if source ∈ w then lf else setVal lf target (w ++ [source])

/-- `link_from = {name: {} for name in link_to}`. -/
def initLinkFrom (lt : Graph) : Graph :=
  lt.foldl (fun acc p => dinsert acc p.1 []) []

/-- The inverse link graph build of `order_graph` (lines 259-264). -/
def buildLinkFrom (lt : Graph) : Graph :=
  lt.foldl (fun acc p => p.2.foldl (fun a l => addSource a l p.1) acc) (initLinkFrom lt)

/-- `ready = [name for name, links in link_from.items() if not links]` followed
by `ready.reverse()` (lines 271-273). -/
def seedReady (lf : Graph) : List Name :=
  ((lf.filter (fun p => p.2.isEmpty)).map Prod.fst).reverse

/-- The hardcoded cycle-breaking priority list (lines 280-285). -/
def priorityNames : List Name :=
  ["Makeover Options",
   "Rosalind actions",
   "Ask Billy what he and Mr. Anderson talked about last night.",
   "Go to the arcade."]

/-- `for name in (...): if name in link_from: ... break` (lines 280-289). -/
def findPriority (lf : Graph) : Option Name :=
  priorityNames.find? (fun n => containsKey lf n)

/-- One step of the inner loop of lines 297-303: remove the popped passage
from the incoming set of one outgoing target. -/
def relaxEdge (popped : Name) (st : Graph × List Name) (link : Name) : Graph × List Name :=
  match lookupG st.1 link with
  | none => st
  | some w =>
    let w' := w.erase popped
    if w' = [] then (eraseKey st.1 link, st.2 ++ [link])
    else (setVal st.1 link w', st.2)

/-- `for link in reversed(link_to[name]): ...` (lines 297-303). -/
def processLinks (lt : Graph) (popped : Name) (lf : Graph) (ready : List Name) :
    Graph × List Name :=
  (((lookupG lt popped).getD []).reverse).foldl (relaxEdge popped) (lf, ready)

/-- The main ordering loop (lines 277-303), with fuel.  The ready list is a
stack whose top is the last element (Python `list.pop()`); when it empties,
the first priority name still in `link_from` is force-readied (and then
immediately popped), and if none remains the loop stops. -/
def orderLoop (lt : Graph) : Nat → List Name → Graph → List Name → List Name × Graph
  | 0, _, lf, ordered => (ordered, lf)
  | fuel + 1, ready, lf, ordered =>
    match ready.getLast? with
    | some name =>
      let st := processLinks lt name lf ready.dropLast
      orderLoop lt fuel st.2 st.1 (ordered ++ [name])
    | none =>
      match findPriority lf with
      | none => (ordered, lf)
      | some name =>
        let st := processLinks lt name (eraseKey lf name) []
        orderLoop lt fuel st.2 st.1 (ordered ++ [name])

/-- The order Python `sorted` uses on passage names: lexicographic
comparison of the code-point sequences. -/
def lexLe (a b : Name) : Prop := a.data ≤ b.data

instance : DecidableRel lexLe := fun a b => inferInstanceAs (Decidable (a.data ≤ b.data))

instance : IsTotal Name lexLe := ⟨fun a b => le_total a.data b.data⟩

instance : IsTrans Name lexLe := ⟨fun _ _ _ h1 h2 => le_trans h1 h2⟩

/-- Python `sorted(...)` on passage names (lexicographic string order). -/
def sortNames (ns : List Name) : List Name := List.insertionSort lexLe ns

/-- The state of `order_graph` when its loop terminates: the ordered
names and the entries of `link_from` left over (unbroken cycles). -/
def orderState (lt : Graph) : List Name × Graph :=
  let lf0 := buildLinkFrom lt
  let ready := seedReady lf0
  let lf1 := removeKeys lf0 ready
  orderLoop lt (ready.length + lf1.length + 1) ready lf1 []

/-- `order_graph` (lines 258-317): the loop's output followed by
`sorted(link_from)` for any passages left unordered (line 315). -/
def order_graph (lt : Graph) : List Name :=
  (orderState lt).1 ++ sortNames (keys (orderState lt).2)

/-! ### `subgraph` (splitter.py lines 184-197) -/

/-- `filter_links`: `{link: None for link in links if link not in limits}` —
drop targets in `limits`, deduplicate keeping first occurrences. -/
def filterLinks (limits : List Name) (links : List Name) : List Name :=
  links.foldl (fun acc l => if l ∈ limits ∨ l ∈ acc then acc else acc ++ [l]) []

/-- One target of the popped frontier node (lines 194-196):
`if link not in reached: remaining[link] = filter_links(graph[link])`.
`none` models the `KeyError` Python raises when `link` is not a key. -/
def sgStep (graph : Graph) (limits : List Name) (reached : Graph) :
    Option Graph → Name → Option Graph
  | none, _ => none
  | some rem, link =>
    if containsKey reached link then some rem
    else
      match lookupG graph link with
      | none => none
      | some ls => some (dinsert rem link (filterLinks limits ls))

/-- The closure loop of `subgraph` (lines 190-196), with fuel: pop the first
entry of `remaining`, record it in `reached`, and enqueue its undiscovered
targets. -/
def subgraphLoop (graph : Graph) (limits : List Name) :
    Nat → Graph → Graph → Option Graph
  | 0, remaining, reached => if remaining = [] then some reached else none
  | fuel + 1, remaining, reached =>
    match remaining with
    | [] => some reached
    | (name, links) :: rest =>
      let reached' := dinsert reached name links
      match links.foldl (sgStep graph limits reached') (some rest) with
      | none => none
      | some rem' => subgraphLoop graph limits fuel rem' reached'

/-- One start of line 188: enter `s` into the initial `remaining` dict with
its limit-filtered links; `none` models the `KeyError` on an unknown start. -/
def initStep (graph : Graph) (limits : List Name) : Option Graph → Name → Option Graph
  | none, _ => none
  | some d, s =>
    match lookupG graph s with
    | none => none
    | some ls => some (dinsert d s (filterLinks limits ls))

/-- `remaining = {name: filter_links(graph[name]) for name in starts}`
(line 188). -/
def initRemaining (graph : Graph) (limits : List Name) (starts : List Name) : Option Graph :=
  starts.foldl (initStep graph limits) (some [])

/-- `subgraph(graph, starts, limits)` (lines 184-197).  Each loop iteration
moves one name into `reached` and the reached names are distinct keys of
`graph`, so fuel `graph.length + 1` always suffices; `none` models a
`KeyError` on a start or discovered target that is not a key of `graph`. -/
def subgraph (graph : Graph) (starts limits : List Name) : Option Graph :=
  match initRemaining graph limits starts with
  | none => none
  | some rem => subgraphLoop graph limits (graph.length + 1) rem []

/-! ### Link extraction (splitter.py lines 114-181)

Passage text is modelled as `List Char`; `pyFind s pat pos` is Python
`s.find(pat, pos)` returning `none` for `-1`. -/

/-- Index of the first occurrence of `pat` (as a sublist) in `s`. -/
def findSub (pat : List Char) : List Char → Option Nat
  | [] => none
  | c :: rest =>
    if pat.isPrefixOf (c :: rest) then some 0
    else (findSub pat rest).map (· + 1)

/-- Python `s.find(pat, pos)` for nonempty `pat` (as an `Option`al index). -/
def pyFind (s pat : List Char) (pos : Nat) : Option Nat :=
  (findSub pat (s.drop pos)).map (· + pos)

/-- Python slice `s[a:b]`. -/
def pySlice (s : List Char) (a b : Nat) : List Char := (s.take b).drop a

/-- The scan loop of `split_body` (lines 115-128), with fuel.  Each
iteration advances `pos` past a `<<...>>` span; an opener without a
closer is reported and scanning stops (the `break` on line 126). -/
def split_bodyAux (body : List Char) : Nat → Nat → List (List Char)
  | 0, _ => []
  | fuel + 1, pos =>
    if pos < body.length then
      match pyFind body ('<' :: '<' :: []) pos with
      | none => [body.drop pos]
      | some start =>
        let gap := if pos < start then [pySlice body pos start] else []
        match pyFind body ('>' :: '>' :: []) start with
        | none => gap
        | some e => gap ++ [pySlice body start (e + 2)] ++ split_bodyAux body fuel (e + 2)
    else []

/-- `split_body` (lines 114-128): a passage body split into plain-text and
`<<...>>` macro segments.  `pos` advances by at least two each iteration,
so fuel `body.length + 1` always suffices. -/
def split_body (body : List Char) : List (List Char) :=
  split_bodyAux body (body.length + 1) 0

/-- Python `\s`, restricted to the six ASCII whitespace characters.
Python `re` on `str` additionally treats Unicode whitespace (e.g. U+00A0)
as `\s`; the macro bodies reasoned about here are ASCII, and the claims
compare both sides through this same tokenizer, so the restriction does
not affect any stated property. -/
def pySpace (c : Char) : Bool :=
  c = ' ' ∨ c = '\t' ∨ c = '\n' ∨ c = '\r' ∨ c = '\x0b' ∨ c = '\x0c'

/-- One character can start a bare-word token of `re_macro_arg`
(the alternative `[^"\[\s]+` of line 131). -/
def bareChar (c : Char) : Bool := ¬(c = '"' ∨ c = '[' ∨ pySpace c)

/-- `re_macro_arg.findall` (line 131): tokenize macro arguments, scanning
left to right; at each position the regex tries, in order, a bare-word run
`[^"\[\s]+`, a quoted run `"[^"]*"`, and a bracketed link `\[\[[^\]]*\]\]`,
and advances one character when none matches. -/
def macroArgsAux : Nat → List Char → List (List Char)
  | 0, _ => []
  | _ + 1, [] => []
  | fuel + 1, c :: rest =>
    if c = '"' then
      match findSub ('"' :: []) rest with
      | some j => ('"' :: (rest.take j ++ ['"'])) :: macroArgsAux fuel (rest.drop (j + 1))
      | none => macroArgsAux fuel rest
    else if c = '[' then
      match rest with
      | '[' :: rest2 =>
        let content := rest2.takeWhile (fun ch => ch ≠ ']')
        match rest2.drop content.length with
        | ']' :: ']' :: rest3 =>
          ('[' :: '[' :: (content ++ [']', ']'])) :: macroArgsAux fuel rest3
        | _ => macroArgsAux fuel rest
      | _ => macroArgsAux fuel rest
    else if pySpace c then macroArgsAux fuel rest
    else (c :: rest.takeWhile bareChar) :: macroArgsAux fuel (rest.dropWhile bareChar)

/-- `re_macro_arg.findall(s)`: every step consumes at least one character,
so fuel `s.length + 1` suffices. -/
def macroArgs (s : List Char) : List (List Char) := macroArgsAux (s.length + 1) s

/-- The quotedness test of lines 139-140 and 152-153:
first and last character are `"`. -/
def quotedTok (t : List Char) : Bool := t.head? = some '"' ∧ t.getLast? = some '"'

/-- `args[0][1:-1]` / `link[1:-1]`: strip the surrounding quotes. -/
def stripEnds (t : List Char) : List Char := (t.drop 1).dropLast

/-- The scan loop of `find_links_in_text` (lines 157-173), with fuel:
yield the target of each `[[...]]` span (text after the first `|`, if
any); an unterminated `[[` is reported and scanning stops. -/
def find_links_in_textAux (text : List Char) : Nat → Nat → List (List Char)
  | 0, _ => []
  | fuel + 1, pos =>
    match pyFind text ('[' :: '[' :: []) pos with
    | none => []
    | some start =>
      match pyFind text (']' :: ']' :: []) start with
      | none => []
      | some e =>
        let link := pySlice text (start + 2) e
        let out :=
          match findSub ('|' :: []) link with
          | none => link
          | some sep => link.drop (sep + 1)
        out :: find_links_in_textAux text fuel (e + 2)

/-- `find_links_in_text` (lines 157-173). -/
def find_links_in_text (text : List Char) : List (List Char) :=
  find_links_in_textAux text (text.length + 1) 0

/-- The token `display`. -/
def displayTok : List Char := 'd' :: 'i' :: 's' :: 'p' :: 'l' :: 'a' :: 'y' :: []

/-- The token `click`. -/
def clickTok : List Char := 'c' :: 'l' :: 'i' :: 'c' :: 'k' :: []

/-- `find_links_in_macro` (lines 134-154) on a macro segment `mseg`.
`none` models an aborting exception: the `assert` contract violations on
the shape of `display`/`click` arguments, and the `ValueError`/`IndexError`
Python raises when the segment has no tokens or too few arguments. -/
def find_links_in_macroSeg (mseg : List Char) : Option (List (List Char)) :=
  if ('<' :: '<' :: []).isPrefixOf mseg ∧ ('>' :: '>' :: []).isSuffixOf mseg then
    match macroArgs ((mseg.drop 2).dropLast.dropLast) with
    | [] => none
    | name :: args =>
      if name = displayTok then
        match args with
        | [] => none
        | a0 :: _ => if quotedTok a0 then some [stripEnds a0] else none
      else if name = clickTok then
        match args with
        | [] => none
        | a0 :: restArgs =>
          if a0.head? = some '[' then some (find_links_in_text a0)
          else
            match restArgs with
            | [] => if quotedTok a0 then some [stripEnds a0] else none
            | [a1] => if quotedTok a1 then some [stripEnds a1] else none
            | _ => none
      else some []
  else none

/-- `"\n".join(body)` for a passage body given as lines. -/
def joinLines (body : List (List Char)) : List Char :=
  (body.intersperse ['\n']).flatten

/-- `find_links` (lines 176-181): split the joined body into segments and
extract links from each; `none` propagates an aborting macro-shape
exception. -/
def find_links (body : List (List Char)) : Option (List (List Char)) :=
  (split_body (joinLines body)).foldl
    (fun acc seg =>
      match acc with
      | none => none
      | some ls =>
        match
          (if ('<' :: '<' :: []).isPrefixOf seg then find_links_in_macroSeg seg
           else some (find_links_in_text seg)) with
        | none => none
        | some more => some (ls ++ more))
    (some [])

/-! ### Derived notions used by the statements -/

/-- The edge relation of a link graph: `a` links to `b`. -/
def hasEdge (g : Graph) (a b : Name) : Prop := ∃ ls, lookupG g a = some ls ∧ b ∈ ls

/-- A graph is acyclic when no node reaches itself by one or more edges. -/
def Acyclic (g : Graph) : Prop := ∀ n, ¬ Relation.TransGen (hasEdge g) n n

/-- `a` occurs strictly before `b` in the list `l`. -/
def before (l : List Name) (a b : Name) : Prop :=
  ∃ l₁ l₂ l₃, l = l₁ ++ [a] ++ l₂ ++ [b] ++ l₃

/-- Well-formedness of a link graph as the Python program produces it:
the graph is a dict (unique keys), each edge set is a dict (no duplicate
targets), and every target is itself a key (`order_passages` line 210
restricts links to known passage names, and `subgraph` output is closed). -/
def WFGraph (g : Graph) : Prop :=
  (keys g).Nodup ∧ (∀ p ∈ g, p.2.Nodup) ∧ (∀ p ∈ g, ∀ t ∈ p.2, t ∈ keys g)

instance (g : Graph) : Decidable (WFGraph g) := by
  unfold WFGraph; infer_instance

/-- The invariant of the ordering loop of `order_graph`: the partition of
the node set into emitted, ready and still-waiting names; the incoming
sets record exactly the not-yet-emitted sources; ready nodes have all
their sources emitted; and the emitted sequence respects all edges into
it.  The two last fields fail for force-readied nodes, which is why they
hold only while no cycle had to be broken. -/
structure OrderInv (lt : Graph) (ready : List Name) (lf : Graph) (ordered : List Name) :
    Prop where
  perm : (ordered : Multiset Name) + (ready : Multiset Name) + mkeys lf
    = (keys lt : Multiset Name)
  keysNd : (keys lf).Nodup
  wchar : ∀ x w, (x, w) ∈ lf → ∀ s, s ∈ w ↔ hasEdge lt s x ∧ s ∉ ordered
  wnd : ∀ x w, (x, w) ∈ lf → w.Nodup
  wne : ∀ x w, (x, w) ∈ lf → w ≠ []
  rdy : ∀ b ∈ ready, ∀ s, hasEdge lt s b → s ∈ ordered
  ord : ∀ a b, hasEdge lt a b → b ∈ ordered → before ordered a b

/-- Modelled from claim C9's wording, for comparison with
`find_links_in_macroSeg`: extraction "fails loudly exactly when a display
macro's first argument is not a quoted string, or when a click macro whose
first argument is not a bracketed link either has more than two arguments
or has a last argument that is not a quoted string" (a missing argument
read charitably as "not a quoted string"). -/
def failsAsClaimed (mseg : List Char) : Bool :=
  match macroArgs ((mseg.drop 2).dropLast.dropLast) with
  | [] => false
  | name :: args =>
    if name = displayTok then
      match args with
      | [] => true
      | a0 :: _ => ! quotedTok a0
    else if name = clickTok then
      match args with
      | [] => true
      | a0 :: restArgs =>
        if a0.head? = some '[' then false
        else
          match restArgs with
          | [] => ! quotedTok a0
          | [a1] => ! quotedTok a1
          | _ => true
    else false

/-! ### Association-list lemmas -/


theorem keys_cons (p : Name × List Name) (g : Graph) : keys (p :: g) = p.1 :: keys g := rfl

theorem keys_append (g₁ g₂ : Graph) : keys (g₁ ++ g₂) = keys g₁ ++ keys g₂ :=
  List.map_append _ _ _

theorem mem_keys_of_mem {g : Graph} {x : Name} {w : List Name} (h : (x, w) ∈ g) :
    x ∈ keys g :=
  List.mem_map_of_mem Prod.fst h

theorem lookupG_isSome_iff {g : Graph} {n : Name} : (lookupG g n).isSome ↔ n ∈ keys g := by
  induction g with
  | nil => simp [lookupG, keys]
  | cons p rest ih =>
    obtain ⟨k, v⟩ := p
    by_cases hk : k = n
    · subst hk; simp [lookupG, keys]
    · simp [lookupG, hk, keys, ih, Ne.symm hk]

theorem containsKey_iff {g : Graph} {n : Name} : containsKey g n = true ↔ n ∈ keys g := by
  rw [containsKey]
  exact lookupG_isSome_iff

theorem lookupG_eq_none_iff {g : Graph} {n : Name} : lookupG g n = none ↔ n ∉ keys g := by
  rw [← lookupG_isSome_iff, Option.not_isSome_iff_eq_none]

theorem lookupG_mem {g : Graph} {n : Name} {v : List Name} (h : lookupG g n = some v) :
    (n, v) ∈ g := by
  induction g with
  | nil => simp [lookupG] at h
  | cons p rest ih =>
    obtain ⟨k, w⟩ := p
    rw [lookupG] at h
    split at h
    · next heq =>
      cases h
      subst heq
      exact List.mem_cons_self _ _
    · exact List.mem_cons_of_mem _ (ih h)

theorem lookupG_of_mem {g : Graph} {n : Name} {v : List Name}
    (hk : (keys g).Nodup) (h : (n, v) ∈ g) : lookupG g n = some v := by
  induction g with
  | nil => simp at h
  | cons p rest ih =>
    obtain ⟨k, w⟩ := p
    rw [keys_cons, List.nodup_cons] at hk
    rcases List.mem_cons.mp h with heq | hmem
    · obtain ⟨hk1, hv1⟩ := Prod.mk.injEq .. ▸ heq
      subst hk1; subst hv1
      simp [lookupG]
    · have hne : k ≠ n := by
        rintro rfl
        exact hk.1 (mem_keys_of_mem hmem)
      simp only [lookupG, if_neg hne]
      exact ih hk.2 hmem

theorem keys_eraseKey_sublist (g : Graph) (n : Name) :
    (keys (eraseKey g n)).Sublist (keys g) := by
  induction g with
  | nil => simp [eraseKey]
  | cons p rest ih =>
    obtain ⟨k, w⟩ := p
    by_cases hk : k = n
    · simp only [eraseKey, if_pos hk, keys_cons]
      exact (List.sublist_cons_self _ _)
    · simp only [eraseKey, if_neg hk, keys_cons]
      exact ih.cons₂ _

theorem nodup_keys_eraseKey {g : Graph} {n : Name} (hk : (keys g).Nodup) :
    (keys (eraseKey g n)).Nodup :=
  hk.sublist (keys_eraseKey_sublist g n)

theorem eraseKey_of_not_mem {g : Graph} {n : Name} (h : n ∉ keys g) : eraseKey g n = g := by
  induction g with
  | nil => rfl
  | cons p rest ih =>
    obtain ⟨k, w⟩ := p
    rw [keys_cons, List.mem_cons] at h
    push_neg at h
    simp only [eraseKey, if_neg (Ne.symm h.1 : k ≠ n)]
    rw [ih h.2]

theorem keys_perm_eraseKey {g : Graph} {n : Name} (h : n ∈ keys g) :
    (keys g).Perm (n :: keys (eraseKey g n)) := by
  induction g with
  | nil => simp [keys] at h
  | cons p rest ih =>
    obtain ⟨k, w⟩ := p
    by_cases hk : k = n
    · subst hk; simp [eraseKey, keys_cons]
    · rw [keys_cons, List.mem_cons] at h
      rcases h with h | h
      · exact absurd h.symm hk
      · simp only [eraseKey, if_neg hk, keys_cons]
        exact (List.Perm.cons k (ih h)).trans (List.Perm.swap n k _)

theorem mem_eraseKey {g : Graph} {n x : Name} {w : List Name} (hk : (keys g).Nodup) :
    (x, w) ∈ eraseKey g n ↔ (x, w) ∈ g ∧ x ≠ n := by
  induction g with
  | nil => simp [eraseKey]
  | cons p rest ih =>
    obtain ⟨k, v⟩ := p
    rw [keys_cons, List.nodup_cons] at hk
    by_cases hkn : k = n
    · subst hkn
      simp only [eraseKey, if_pos rfl, List.mem_cons]
      constructor
      · intro h
        refine ⟨Or.inr h, ?_⟩
        rintro rfl
        exact hk.1 (mem_keys_of_mem h)
      · rintro ⟨h | h, hne⟩
        · cases h; exact absurd rfl hne
        · exact h
    · simp only [eraseKey, if_neg hkn, List.mem_cons, ih hk.2]
      constructor
      · rintro (h | ⟨h, hne⟩)
        · cases h
          exact ⟨Or.inl rfl, hkn⟩
        · exact ⟨Or.inr h, hne⟩
      · rintro ⟨h | h, hne⟩
        · exact Or.inl h
        · exact Or.inr ⟨h, hne⟩

theorem containsKey_eraseKey_ne {g : Graph} {n m : Name} (h : m ≠ n) :
    containsKey (eraseKey g n) m = containsKey g m := by
  induction g with
  | nil => rfl
  | cons p rest ih =>
    obtain ⟨k, v⟩ := p
    by_cases hkn : k = n
    · subst hkn
      have hkm : k ≠ m := fun hh => h (hh ▸ rfl)
      simp [eraseKey, containsKey, lookupG, hkm]
    · by_cases hkm : k = m
      · subst hkm
        simp [eraseKey, hkn, containsKey, lookupG]
      · simp only [eraseKey, if_neg hkn, containsKey, lookupG, if_neg hkm]
        exact ih

theorem keys_setVal (g : Graph) (n : Name) (w : List Name) : keys (setVal g n w) = keys g := by
  induction g with
  | nil => rfl
  | cons p rest ih =>
    obtain ⟨k, v⟩ := p
    by_cases hk : k = n
    · simp [setVal, if_pos hk, keys_cons]
    · simp [setVal, if_neg hk, keys_cons, ih]

theorem lookupG_setVal_self {g : Graph} {n : Name} (w : List Name) (h : n ∈ keys g) :
    lookupG (setVal g n w) n = some w := by
  induction g with
  | nil => simp [keys] at h
  | cons p rest ih =>
    obtain ⟨k, v⟩ := p
    by_cases hk : k = n
    · subst hk; simp [setVal, lookupG]
    · rw [keys_cons, List.mem_cons] at h
      rcases h with h | h
      · exact absurd h.symm hk
      · simp only [setVal, if_neg hk, lookupG, if_neg hk]
        exact ih h

theorem lookupG_setVal_ne {g : Graph} {n m : Name} (w : List Name) (h : m ≠ n) :
    lookupG (setVal g n w) m = lookupG g m := by
  induction g with
  | nil => rfl
  | cons p rest ih =>
    obtain ⟨k, v⟩ := p
    by_cases hk : k = n
    · subst hk
      have hkm : k ≠ m := fun hh => h (hh ▸ rfl)
      rw [setVal, if_pos rfl, lookupG, lookupG, if_neg hkm, if_neg hkm]
    · by_cases hkm : k = m
      · subst hkm; simp [setVal, hk, lookupG]
      · rw [setVal, if_neg hk, lookupG, lookupG, if_neg hkm, if_neg hkm]
        exact ih

theorem mem_setVal {g : Graph} {n x : Name} {w u : List Name} (hk : (keys g).Nodup) :
    (x, u) ∈ setVal g n w ↔ (x ≠ n ∧ (x, u) ∈ g) ∨ (x = n ∧ u = w ∧ n ∈ keys g) := by
  induction g with
  | nil => simp [setVal, keys]
  | cons p rest ih =>
    obtain ⟨k, v⟩ := p
    rw [keys_cons, List.nodup_cons] at hk
    by_cases hkn : k = n
    · subst hkn
      rw [setVal, if_pos rfl, List.mem_cons, keys_cons]
      constructor
      · rintro (h | h)
        · cases h
          exact Or.inr ⟨rfl, rfl, List.mem_cons_self _ _⟩
        · refine Or.inl ⟨?_, List.mem_cons_of_mem _ h⟩
          rintro rfl
          exact hk.1 (mem_keys_of_mem h)
      · rintro (⟨hne, h⟩ | ⟨rfl, rfl, _⟩)
        · rcases List.mem_cons.mp h with h | h
          · cases h; exact absurd rfl hne
          · exact Or.inr h
        · exact Or.inl rfl
    · rw [setVal, if_neg hkn, List.mem_cons, ih hk.2, keys_cons]
      constructor
      · rintro (h | h)
        · cases h
          exact Or.inl ⟨hkn, List.mem_cons_self _ _⟩
        · rcases h with ⟨hne, hm⟩ | ⟨rfl, rfl, hm⟩
          · exact Or.inl ⟨hne, List.mem_cons_of_mem _ hm⟩
          · exact Or.inr ⟨rfl, rfl, List.mem_cons_of_mem _ hm⟩
      · rintro (⟨hne, h⟩ | ⟨rfl, rfl, h⟩)
        · rcases List.mem_cons.mp h with h | h
          · exact Or.inl h
          · exact Or.inr (Or.inl ⟨hne, h⟩)
        · rcases List.mem_cons.mp h with h | h
          · exact absurd h.symm hkn
          · exact Or.inr (Or.inr ⟨rfl, rfl, h⟩)

theorem setVal_self {g : Graph} {n : Name} {w : List Name} (hk : (keys g).Nodup)
    (h : lookupG g n = some w) : setVal g n w = g := by
  induction g with
  | nil => rfl
  | cons p rest ih =>
    obtain ⟨k, v⟩ := p
    rw [keys_cons, List.nodup_cons] at hk
    by_cases hkn : k = n
    · subst hkn
      rw [lookupG, if_pos rfl] at h
      cases h
      rw [setVal, if_pos rfl]
    · rw [lookupG, if_neg hkn] at h
      rw [setVal, if_neg hkn, ih hk.2 h]

theorem keys_dinsert (d : Graph) (k : Name) (v : List Name) :
    keys (dinsert d k v) = if k ∈ keys d then keys d else keys d ++ [k] := by
  unfold dinsert
  by_cases h : k ∈ keys d
  · rw [if_pos (containsKey_iff.mpr h), keys_setVal, if_pos h]
  · rw [if_neg (fun hc => h (containsKey_iff.mp hc)), keys_append, if_neg h]
    rfl

theorem dinsert_self {d : Graph} {k : Name} {v : List Name} (hk : (keys d).Nodup)
    (h : lookupG d k = some v) : dinsert d k v = d := by
  unfold dinsert
  rw [if_pos (by rw [containsKey]; rw [h]; rfl)]
  exact setVal_self hk h

theorem dinsert_of_not_mem {d : Graph} {k : Name} (v : List Name) (h : k ∉ keys d) :
    dinsert d k v = d ++ [(k, v)] := by
  unfold dinsert
  rw [if_neg (fun hc => h (containsKey_iff.mp hc))]

theorem nodup_keys_dinsert {d : Graph} {k : Name} (v : List Name) (hk : (keys d).Nodup) :
    (keys (dinsert d k v)).Nodup := by
  rw [keys_dinsert]
  by_cases h : k ∈ keys d
  · rwa [if_pos h]
  · rw [if_neg h]
    simpa [List.nodup_append] using ⟨hk, h⟩

theorem mem_keys_dinsert_self (d : Graph) (k : Name) (v : List Name) :
    k ∈ keys (dinsert d k v) := by
  rw [keys_dinsert]
  by_cases h : k ∈ keys d
  · rwa [if_pos h]
  · rw [if_neg h]; simp

theorem mem_keys_dinsert_of_mem {d : Graph} {m : Name} (k : Name) (v : List Name)
    (h : m ∈ keys d) : m ∈ keys (dinsert d k v) := by
  rw [keys_dinsert]
  by_cases hk : k ∈ keys d
  · rwa [if_pos hk]
  · rw [if_neg hk]; exact List.mem_append_left _ h



/-! ### Multiset bookkeeping for the ordering loop -/

theorem mkeys_eraseKey {g : Graph} {n : Name} (h : n ∈ keys g) :
    mkeys g = n ::ₘ mkeys (eraseKey g n) := by
  rw [mkeys, mkeys, Multiset.cons_coe, Multiset.coe_eq_coe]
  exact keys_perm_eraseKey h

theorem mkeys_setVal (g : Graph) (n : Name) (w : List Name) :
    mkeys (setVal g n w) = mkeys g := by
  rw [mkeys, mkeys, keys_setVal]

theorem getLast?_decomp {l : List Name} {a : Name} (h : l.getLast? = some a) :
    l = l.dropLast ++ [a] :=
  (List.dropLast_append_getLast? a (by rw [Option.mem_def]; exact h)).symm

theorem relaxEdge_mkeys (p : Name) (st : Graph × List Name) (l : Name) :
    ((relaxEdge p st l).2 : Multiset Name) + mkeys (relaxEdge p st l).1
      = (st.2 : Multiset Name) + mkeys st.1 := by
  cases hlk : lookupG st.1 l with
  | none => simp [relaxEdge, hlk]
  | some w =>
    have hmem : l ∈ keys st.1 := lookupG_isSome_iff.mp (by rw [hlk]; rfl)
    by_cases he : w.erase p = []
    · simp only [relaxEdge, hlk]
      rw [if_pos he]
      show ((st.2 ++ [l] : List Name) : Multiset Name) + mkeys (eraseKey st.1 l)
          = (st.2 : Multiset Name) + mkeys st.1
      rw [mkeys_eraseKey hmem]
      simp only [mkeys, ← Multiset.coe_add, ← Multiset.singleton_add, Multiset.coe_singleton]
      abel
    · simp only [relaxEdge, hlk]
      rw [if_neg he]
      show (st.2 : Multiset Name) + mkeys (setVal st.1 l (w.erase p))
          = (st.2 : Multiset Name) + mkeys st.1
      rw [mkeys_setVal]

theorem foldl_relax_mkeys (p : Name) (L : List Name) (st : Graph × List Name) :
    ((L.foldl (relaxEdge p) st).2 : Multiset Name) + mkeys (L.foldl (relaxEdge p) st).1
      = (st.2 : Multiset Name) + mkeys st.1 := by
  induction L generalizing st with
  | nil => rfl
  | cons l rest ih => rw [List.foldl_cons, ih, relaxEdge_mkeys]

theorem processLinks_mkeys (lt : Graph) (p : Name) (lf : Graph) (ready : List Name) :
    ((processLinks lt p lf ready).2 : Multiset Name) + mkeys (processLinks lt p lf ready).1
      = (ready : Multiset Name) + mkeys lf :=
  foldl_relax_mkeys p _ (lf, ready)

theorem processLinks_length (lt : Graph) (p : Name) (lf : Graph) (ready : List Name) :
    (processLinks lt p lf ready).2.length + (processLinks lt p lf ready).1.length
      = ready.length + lf.length := by
  have h := congrArg Multiset.card (processLinks_mkeys lt p lf ready)
  simpa [mkeys, keys] using h

theorem findPriority_containsKey {lf : Graph} {n : Name} (h : findPriority lf = some n) :
    n ∈ keys lf := by
  have := List.find?_some h
  exact containsKey_iff.mp this

theorem eraseKey_length {lf : Graph} {n : Name} (h : n ∈ keys lf) :
    lf.length = (eraseKey lf n).length + 1 := by
  have hc := congrArg Multiset.card (mkeys_eraseKey h)
  simpa [mkeys, keys] using hc

theorem orderLoop_mkeys (lt : Graph) :
    ∀ fuel ready lf ordered, ready.length + lf.length < fuel →
      ((orderLoop lt fuel ready lf ordered).1 : Multiset Name)
          + mkeys (orderLoop lt fuel ready lf ordered).2
        = (ordered : Multiset Name) + (ready : Multiset Name) + mkeys lf := by
  intro fuel
  induction fuel with
  | zero => intro ready lf ordered h; exact absurd h (Nat.not_lt_zero _)
  | succ fuel ih =>
    intro ready lf ordered hfuel
    rw [orderLoop]
    split
    · next name hl =>
      have hdec := getLast?_decomp hl
      have hlen : ready.length = ready.dropLast.length + 1 := by
        conv_lhs => rw [hdec]
        simp
      have hmeas : (processLinks lt name lf ready.dropLast).2.length
          + (processLinks lt name lf ready.dropLast).1.length < fuel := by
        rw [processLinks_length]; omega
      have hready : (ready : Multiset Name)
          = (ready.dropLast : Multiset Name) + (([name] : List Name) : Multiset Name) := by
        conv_lhs => rw [hdec]
        rw [Multiset.coe_add]
      rw [ih _ _ _ hmeas, add_assoc, processLinks_mkeys, hready]
      simp only [← Multiset.coe_add]
      abel
    · next hl =>
      have hready : ready = [] := List.getLast?_eq_none_iff.mp hl
      subst hready
      split
      · next hf =>
        simp [Multiset.coe_nil]
      · next name hf =>
        have hmem := findPriority_containsKey hf
        have hlf := eraseKey_length hmem
        have hmeas : (processLinks lt name (eraseKey lf name) []).2.length
            + (processLinks lt name (eraseKey lf name) []).1.length < fuel := by
          rw [processLinks_length]
          simp only [List.length_nil, Nat.zero_add]
          omega
        rw [ih _ _ _ hmeas, add_assoc, processLinks_mkeys, mkeys_eraseKey hmem]
        simp only [Multiset.coe_nil, ← Multiset.coe_add, ← Multiset.singleton_add,
          Multiset.coe_singleton]
        abel

theorem removeKeys_mkeys {lf : Graph} {ns : List Name} (hk : (keys lf).Nodup)
    (hns : ns.Nodup) (hmem : ∀ n ∈ ns, n ∈ keys lf) :
    (ns : Multiset Name) + mkeys (removeKeys lf ns) = mkeys lf := by
  induction ns generalizing lf with
  | nil => rw [removeKeys]; simp
  | cons n rest ih =>
    rw [List.nodup_cons] at hns
    have hn : n ∈ keys lf := hmem n (List.mem_cons_self _ _)
    have hrest : ∀ m ∈ rest, m ∈ keys (eraseKey lf n) := by
      intro m hm
      have hmlf : m ∈ keys lf := hmem m (List.mem_cons_of_mem _ hm)
      have hne : m ≠ n := by rintro rfl; exact hns.1 hm
      have := containsKey_eraseKey_ne (g := lf) hne
      exact containsKey_iff.mp (by rw [this]; exact containsKey_iff.mpr hmlf)
    have hkr : (keys (eraseKey lf n)).Nodup := nodup_keys_eraseKey hk
    have hstep : removeKeys lf (n :: rest) = removeKeys (eraseKey lf n) rest := rfl
    rw [hstep, ← Multiset.cons_coe, Multiset.cons_add, ih hkr hns.2 hrest,
      ← mkeys_eraseKey hn]

theorem seedReady_reverse_sublist (lf : Graph) :
    (seedReady lf).reverse.Sublist (keys lf) := by
  rw [seedReady, List.reverse_reverse]
  exact List.Sublist.map Prod.fst (List.filter_sublist _)

theorem seedReady_nodup {lf : Graph} (hk : (keys lf).Nodup) : (seedReady lf).Nodup := by
  have := (hk.sublist (seedReady_reverse_sublist lf))
  simpa using this

theorem seedReady_mem_keys {lf : Graph} {n : Name} (h : n ∈ seedReady lf) : n ∈ keys lf := by
  have hrev : n ∈ (seedReady lf).reverse := by simpa using h
  exact (seedReady_reverse_sublist lf).mem hrev

theorem seedReady_entry {lf : Graph} {n : Name} (h : n ∈ seedReady lf) : (n, []) ∈ lf := by
  rw [seedReady, List.mem_reverse, List.mem_map] at h
  obtain ⟨p, hp, hfst⟩ := h
  obtain ⟨k, v⟩ := p
  have hv : v.isEmpty = true := by
    have := List.of_mem_filter hp
    simpa using this
  have hveq : v = [] := List.isEmpty_iff.mp hv
  have hkn : k = n := hfst
  subst hveq
  subst hkn
  exact List.mem_of_mem_filter hp

/-! ### The keys of the inverse graph -/

theorem keys_addSource (lf : Graph) (t s : Name) : keys (addSource lf t s) = keys lf := by
  rw [addSource]
  cases lookupG lf t with
  | none => rfl
  | some w =>
    by_cases hs : s ∈ w
    · simp [hs]
    · simp [hs, keys_setVal]

theorem keys_foldl_addSource (ls : List Name) (src : Name) (acc : Graph) :
    keys (ls.foldl (fun a l => addSource a l src) acc) = keys acc := by
  induction ls generalizing acc with
  | nil => rfl
  | cons l rest ih => rw [List.foldl_cons, ih, keys_addSource]

theorem keys_buildLinkFrom_foldl (g : List (Name × List Name)) (acc : Graph) :
    keys (g.foldl (fun acc p => p.2.foldl (fun a l => addSource a l p.1) acc) acc)
      = keys acc := by
  induction g generalizing acc with
  | nil => rfl
  | cons p rest ih => rw [List.foldl_cons, ih, keys_foldl_addSource]

theorem initLinkFrom_aux (lt : List (Name × List Name)) (acc : Graph)
    (hdis : ∀ n ∈ keys lt, n ∉ keys acc) (hk : (keys lt).Nodup) :
    lt.foldl (fun acc p => dinsert acc p.1 []) acc = acc ++ lt.map (fun p => (p.1, [])) := by
  induction lt generalizing acc with
  | nil => simp
  | cons p rest ih =>
    rw [keys_cons, List.nodup_cons] at hk
    rw [List.foldl_cons]
    have hnp : p.1 ∉ keys acc := hdis p.1 (by rw [keys_cons]; exact List.mem_cons_self _ _)
    rw [dinsert_of_not_mem _ hnp]
    rw [ih _ ?_ hk.2]
    · simp
    · intro n hn
      rw [keys_append]
      rw [List.mem_append]
      push_neg
      constructor
      · exact hdis n (by rw [keys_cons]; exact List.mem_cons_of_mem _ hn)
      · have : n ≠ p.1 := by rintro rfl; exact hk.1 hn
        simpa [keys] using this

theorem initLinkFrom_eq {lt : Graph} (hk : (keys lt).Nodup) :
    initLinkFrom lt = lt.map (fun p => (p.1, [])) := by
  rw [initLinkFrom, initLinkFrom_aux lt [] (by simp [keys]) hk]
  rfl

theorem keys_initLinkFrom {lt : Graph} (hk : (keys lt).Nodup) :
    keys (initLinkFrom lt) = keys lt := by
  rw [initLinkFrom_eq hk, keys, List.map_map]
  rfl

theorem keys_buildLinkFrom {lt : Graph} (hk : (keys lt).Nodup) :
    keys (buildLinkFrom lt) = keys lt := by
  rw [buildLinkFrom, keys_buildLinkFrom_foldl, keys_initLinkFrom hk]

/-! ### Claim C1: the ordering is a permutation of the key set -/

theorem sortNames_perm (ns : List Name) : (sortNames ns).Perm ns :=
  List.perm_insertionSort lexLe ns

theorem orderState_mkeys {g : Graph} (hk : (keys g).Nodup) :
    ((orderState g).1 : Multiset Name) + mkeys (orderState g).2
      = (keys g : Multiset Name) := by
  have hkl : (keys (buildLinkFrom g)).Nodup := by rw [keys_buildLinkFrom hk]; exact hk
  have hseed := removeKeys_mkeys hkl (seedReady_nodup hkl)
    (fun n hn => seedReady_mem_keys hn)
  have hdef : orderState g = orderLoop g ((seedReady (buildLinkFrom g)).length
      + (removeKeys (buildLinkFrom g) (seedReady (buildLinkFrom g))).length + 1)
      (seedReady (buildLinkFrom g)) (removeKeys (buildLinkFrom g) (seedReady (buildLinkFrom g)))
      [] := rfl
  rw [hdef, orderLoop_mkeys g _ _ _ _ (Nat.lt_succ_self _)]
  have hnil : ((List.nil : List Name) : Multiset Name) = 0 := rfl
  rw [hnil, zero_add, hseed, mkeys, keys_buildLinkFrom hk]

/-- Claim C1: for every link graph of the shape the program builds
(a dict with duplicate-free edge sets over known names — `WFGraph`),
including fully cyclic and disconnected ones, `order_graph` returns a
permutation of the graph's key set: every key appears exactly once in the
output, with no duplicates and no omissions. -/
theorem order_graph_perm_keys (g : Graph) (hw : WFGraph g) :
    (order_graph g).Perm (keys g) := by
  have hms := orderState_mkeys hw.1
  rw [order_graph, ← Multiset.coe_eq_coe, ← Multiset.coe_add]
  have hsort : ((sortNames (keys (orderState g).2) : List Name) : Multiset Name)
      = mkeys (orderState g).2 := by
    rw [mkeys, Multiset.coe_eq_coe]
    exact sortNames_perm _
  rw [hsort]
  exact hms

/-- Witness for C1: a fully cyclic two-node graph; the output is a
permutation of the key set. -/
theorem order_graph_perm_keys_witness :
    WFGraph [("a", ["b"]), ("b", ["a"])] ∧
      (order_graph [("a", ["b"]), ("b", ["a"])]).Perm (keys [("a", ["b"]), ("b", ["a"])]) :=
  ⟨by decide, order_graph_perm_keys [("a", ["b"]), ("b", ["a"])] (by decide)⟩

/-! ### `subgraph` lemmas -/

theorem mem_filterLinks_aux (limits : List Name) :
    ∀ (links acc : List Name) (l : Name),
      l ∈ links.foldl (fun acc l => if l ∈ limits ∨ l ∈ acc then acc else acc ++ [l]) acc
        ↔ l ∈ acc ∨ (l ∈ links ∧ l ∉ limits) := by
  intro links
  induction links with
  | nil => intro acc l; simp
  | cons x rest ih =>
    intro acc l
    rw [List.foldl_cons]
    by_cases hx : x ∈ limits ∨ x ∈ acc
    · rw [if_pos hx, ih]
      constructor
      · rintro (h | ⟨h1, h2⟩)
        · exact Or.inl h
        · exact Or.inr ⟨List.mem_cons_of_mem _ h1, h2⟩
      · rintro (h | ⟨h1, h2⟩)
        · exact Or.inl h
        · rcases List.mem_cons.mp h1 with rfl | h1
          · rcases hx with hx | hx
            · exact absurd hx h2
            · exact Or.inl hx
          · exact Or.inr ⟨h1, h2⟩
    · push_neg at hx
      rw [if_neg (by simpa using (not_or.mpr ⟨hx.1, hx.2⟩)), ih]
      constructor
      · rintro (h | ⟨h1, h2⟩)
        · rcases List.mem_append.mp h with h | h
          · exact Or.inl h
          · rcases List.mem_singleton.mp h with rfl
            exact Or.inr ⟨List.mem_cons_self _ _, hx.1⟩
        · exact Or.inr ⟨List.mem_cons_of_mem _ h1, h2⟩
      · rintro (h | ⟨h1, h2⟩)
        · exact Or.inl (List.mem_append_left _ h)
        · rcases List.mem_cons.mp h1 with rfl | h1
          · exact Or.inl (List.mem_append_right _ (List.mem_singleton_self _))
          · exact Or.inr ⟨h1, h2⟩

theorem mem_filterLinks {limits links : List Name} {l : Name} :
    l ∈ filterLinks limits links ↔ l ∈ links ∧ l ∉ limits := by
  rw [filterLinks]
  simpa using mem_filterLinks_aux limits links [] l

theorem filterLinks_aux_eq (limits : List Name) :
    ∀ (links acc : List Name), (acc ++ links).Nodup → (∀ l ∈ links, l ∉ limits) →
      links.foldl (fun acc l => if l ∈ limits ∨ l ∈ acc then acc else acc ++ [l]) acc
        = acc ++ links := by
  intro links
  induction links with
  | nil => intro acc _ _; simp
  | cons x rest ih =>
    intro acc hnd hnl
    rw [List.foldl_cons]
    have hxa : x ∉ acc := by
      intro hmem
      have := List.disjoint_of_nodup_append hnd
      exact this hmem (List.mem_cons_self _ _)
    have hxl : x ∉ limits := hnl x (List.mem_cons_self _ _)
    rw [if_neg (by simpa using not_or.mpr ⟨hxl, hxa⟩)]
    have hnd' : ((acc ++ [x]) ++ rest).Nodup := by
      rw [List.append_assoc]
      exact hnd
    rw [ih (acc ++ [x]) hnd' (fun l hl => hnl l (List.mem_cons_of_mem _ hl)),
      List.append_assoc]
    rfl

theorem filterLinks_eq_self {limits links : List Name} (hnd : links.Nodup)
    (hnl : ∀ l ∈ links, l ∉ limits) : filterLinks limits links = links := by
  rw [filterLinks, filterLinks_aux_eq limits links [] (by simpa using hnd) hnl]
  rfl

theorem mem_setVal_sub {d : Graph} {k x : Name} {v w : List Name}
    (h : (x, w) ∈ setVal d k v) : (x, w) ∈ d ∨ (x = k ∧ w = v) := by
  induction d with
  | nil => simp [setVal] at h
  | cons p rest ih =>
    obtain ⟨a, b⟩ := p
    rw [setVal] at h
    split at h
    · rcases List.mem_cons.mp h with h | h
      · cases h
        next heq => exact Or.inr ⟨heq.symm ▸ rfl, rfl⟩
      · exact Or.inl (List.mem_cons_of_mem _ h)
    · rcases List.mem_cons.mp h with h | h
      · cases h
        exact Or.inl (List.mem_cons_self _ _)
      · rcases ih h with h | h
        · exact Or.inl (List.mem_cons_of_mem _ h)
        · exact Or.inr h

theorem mem_dinsert_sub {d : Graph} {k x : Name} {v w : List Name}
    (h : (x, w) ∈ dinsert d k v) : (x, w) ∈ d ∨ (x = k ∧ w = v) := by
  rw [dinsert] at h
  split at h
  · exact mem_setVal_sub h
  · rcases List.mem_append.mp h with h | h
    · exact Or.inl h
    · rcases List.mem_singleton.mp h with h
      cases h
      exact Or.inr ⟨rfl, rfl⟩

theorem sgFold_none (graph : Graph) (limits : List Name) (rc : Graph) :
    ∀ links : List Name, links.foldl (sgStep graph limits rc) none = none := by
  intro links
  induction links with
  | nil => rfl
  | cons l rest ih => rw [List.foldl_cons]; exact ih

theorem sgFold_keys_mono (graph : Graph) (limits : List Name) (rc : Graph) :
    ∀ (links : List Name) (acc rem' : Graph),
      links.foldl (sgStep graph limits rc) (some acc) = some rem' →
      ∀ m ∈ keys acc, m ∈ keys rem' := by
  intro links
  induction links with
  | nil =>
    intro acc rem' h m hm
    cases h
    exact hm
  | cons l rest ih =>
    intro acc rem' h m hm
    rw [List.foldl_cons] at h
    by_cases hc : containsKey rc l = true
    · rw [sgStep, if_pos hc] at h
      exact ih acc rem' h m hm
    · rw [sgStep, if_neg hc] at h
      cases hg : lookupG graph l with
      | none =>
        rw [hg] at h
        rw [sgFold_none] at h
        cases h
      | some ls =>
        rw [hg] at h
        exact ih _ rem' h m (mem_keys_dinsert_of_mem _ _ hm)

theorem sgFold_covers (graph : Graph) (limits : List Name) (rc : Graph) :
    ∀ (links : List Name) (acc rem' : Graph),
      links.foldl (sgStep graph limits rc) (some acc) = some rem' →
      ∀ l ∈ links, containsKey rc l = true ∨ l ∈ keys rem' := by
  intro links
  induction links with
  | nil => intro acc rem' _ l hl; simp at hl
  | cons x rest ih =>
    intro acc rem' h l hl
    rw [List.foldl_cons] at h
    by_cases hc : containsKey rc x = true
    · rw [sgStep, if_pos hc] at h
      rcases List.mem_cons.mp hl with rfl | hl
      · exact Or.inl hc
      · exact ih acc rem' h l hl
    · rw [sgStep, if_neg hc] at h
      cases hg : lookupG graph x with
      | none =>
        rw [hg] at h
        rw [sgFold_none] at h
        cases h
      | some ls =>
        rw [hg] at h
        rcases List.mem_cons.mp hl with rfl | hl
        · exact Or.inr (sgFold_keys_mono graph limits rc rest _ rem' h l
            (mem_keys_dinsert_self acc l _))
        · exact ih _ rem' h l hl

theorem sgFold_entries (graph : Graph) (limits : List Name) (rc : Graph) :
    ∀ (links : List Name) (acc rem' : Graph),
      links.foldl (sgStep graph limits rc) (some acc) = some rem' →
      ∀ x w, (x, w) ∈ rem' →
        (x, w) ∈ acc ∨ ∃ ls, lookupG graph x = some ls ∧ w = filterLinks limits ls := by
  intro links
  induction links with
  | nil =>
    intro acc rem' h x w hm
    cases h
    exact Or.inl hm
  | cons l rest ih =>
    intro acc rem' h x w hm
    rw [List.foldl_cons] at h
    by_cases hc : containsKey rc l = true
    · rw [sgStep, if_pos hc] at h
      exact ih acc rem' h x w hm
    · rw [sgStep, if_neg hc] at h
      cases hg : lookupG graph l with
      | none =>
        rw [hg] at h
        rw [sgFold_none] at h
        cases h
      | some ls =>
        rw [hg] at h
        rcases ih _ rem' h x w hm with hin | hex
        · rcases mem_dinsert_sub hin with hin | ⟨rfl, rfl⟩
          · exact Or.inl hin
          · exact Or.inr ⟨ls, hg, rfl⟩
        · exact Or.inr hex

theorem sgFold_keys_from (graph : Graph) (limits : List Name) (rc : Graph) :
    ∀ (links : List Name) (acc rem' : Graph),
      links.foldl (sgStep graph limits rc) (some acc) = some rem' →
      ∀ x ∈ keys rem', x ∈ keys acc ∨ x ∈ links := by
  intro links
  induction links with
  | nil =>
    intro acc rem' h x hm
    cases h
    exact Or.inl hm
  | cons l rest ih =>
    intro acc rem' h x hm
    rw [List.foldl_cons] at h
    by_cases hc : containsKey rc l = true
    · rw [sgStep, if_pos hc] at h
      rcases ih acc rem' h x hm with h | h
      · exact Or.inl h
      · exact Or.inr (List.mem_cons_of_mem _ h)
    · rw [sgStep, if_neg hc] at h
      cases hg : lookupG graph l with
      | none =>
        rw [hg] at h
        rw [sgFold_none] at h
        cases h
      | some ls =>
        rw [hg] at h
        rcases ih _ rem' h x hm with h | h
        · rw [keys_dinsert] at h
          by_cases hl : l ∈ keys acc
          · rw [if_pos hl] at h
            exact Or.inl h
          · rw [if_neg hl] at h
            rcases List.mem_append.mp h with h | h
            · exact Or.inl h
            · rcases List.mem_singleton.mp h with rfl
              exact Or.inr (List.mem_cons_self _ _)
        · exact Or.inr (List.mem_cons_of_mem _ h)

theorem subgraphLoop_closed (graph : Graph) (limits : List Name) :
    ∀ (fuel : Nat) (remaining reached r : Graph),
      subgraphLoop graph limits fuel remaining reached = some r →
      (∀ x w, (x, w) ∈ reached → ∀ l ∈ w,
        l ∉ limits ∧ (l ∈ keys reached ∨ l ∈ keys remaining)) →
      (∀ x w, (x, w) ∈ remaining → ∀ l ∈ w, l ∉ limits) →
      ∀ x w, (x, w) ∈ r → ∀ l ∈ w, l ∉ limits ∧ l ∈ keys r := by
  intro fuel
  induction fuel with
  | zero =>
    intro remaining reached r h hA _
    rw [subgraphLoop] at h
    split at h
    · next he =>
      cases h
      intro x w hm l hl
      obtain ⟨h1, h2⟩ := hA x w hm l hl
      refine ⟨h1, ?_⟩
      rcases h2 with h2 | h2
      · exact h2
      · rw [he] at h2; simp [keys] at h2
    · cases h
  | succ fuel ih =>
    intro remaining reached r h hA hB
    cases remaining with
    | nil =>
      rw [subgraphLoop] at h
      cases h
      intro x w hm l hl
      obtain ⟨h1, h2⟩ := hA x w hm l hl
      refine ⟨h1, ?_⟩
      rcases h2 with h2 | h2
      · exact h2
      · simp [keys] at h2
    | cons p rest =>
      obtain ⟨name, links⟩ := p
      cases hf : links.foldl (sgStep graph limits (dinsert reached name links))
          (some rest) with
      | none =>
        simp only [subgraphLoop, hf] at h
        exact Option.noConfusion h
      | some rem' =>
        simp only [subgraphLoop, hf] at h
        refine ih rem' (dinsert reached name links) r h ?_ ?_
        · intro x w hm l hl
          rcases mem_dinsert_sub hm with hin | ⟨rfl, rfl⟩
          · obtain ⟨h1, h2⟩ := hA x w hin l hl
            refine ⟨h1, ?_⟩
            rcases h2 with h2 | h2
            · exact Or.inl (mem_keys_dinsert_of_mem _ _ h2)
            · rw [keys_cons] at h2
              rcases List.mem_cons.mp h2 with rfl | h2
              · exact Or.inl (mem_keys_dinsert_self _ _ _)
              · exact Or.inr (sgFold_keys_mono graph limits _ links rest rem' hf l h2)
          · refine ⟨hB x w (List.mem_cons_self _ _) l hl, ?_⟩
            rcases sgFold_covers graph limits _ w rest rem' hf l hl with hc | hc
            · exact Or.inl (containsKey_iff.mp hc)
            · exact Or.inr hc
        · intro x w hm l hl
          rcases sgFold_entries graph limits _ links rest rem' hf x w hm with hin | ⟨ls, _, rfl⟩
          · exact hB x w (List.mem_cons_of_mem _ hin) l hl
          · exact (mem_filterLinks.mp hl).2

theorem subgraphLoop_keys_from (graph : Graph) (limits : List Name) :
    ∀ (fuel : Nat) (remaining reached r : Graph),
      subgraphLoop graph limits fuel remaining reached = some r →
      (∀ x w, (x, w) ∈ remaining → ∀ l ∈ w, l ∉ limits) →
      ∀ x ∈ keys r, x ∈ keys reached ∨ x ∈ keys remaining ∨ x ∉ limits := by
  intro fuel
  induction fuel with
  | zero =>
    intro remaining reached r h _
    rw [subgraphLoop] at h
    split at h
    · cases h
      intro x hm
      exact Or.inl hm
    · cases h
  | succ fuel ih =>
    intro remaining reached r h hB
    cases remaining with
    | nil =>
      rw [subgraphLoop] at h
      cases h
      intro x hm
      exact Or.inl hm
    | cons p rest =>
      obtain ⟨name, links⟩ := p
      cases hf : links.foldl (sgStep graph limits (dinsert reached name links))
          (some rest) with
      | none =>
        simp only [subgraphLoop, hf] at h
        exact Option.noConfusion h
      | some rem' =>
        simp only [subgraphLoop, hf] at h
        have hB' : ∀ x w, (x, w) ∈ rem' → ∀ l ∈ w, l ∉ limits := by
          intro x w hm l hl
          rcases sgFold_entries graph limits _ links rest rem' hf x w hm with hin | ⟨ls, _, rfl⟩
          · exact hB x w (List.mem_cons_of_mem _ hin) l hl
          · exact (mem_filterLinks.mp hl).2
        intro x hm
        rcases ih rem' (dinsert reached name links) r h hB' x hm with hc | hc | hc
        · rw [keys_dinsert] at hc
          by_cases hn : name ∈ keys reached
          · rw [if_pos hn] at hc
            exact Or.inl hc
          · rw [if_neg hn] at hc
            rcases List.mem_append.mp hc with hc | hc
            · exact Or.inl hc
            · rcases List.mem_singleton.mp hc with rfl
              exact Or.inr (Or.inl (by rw [keys_cons]; exact List.mem_cons_self _ _))
        · rcases sgFold_keys_from graph limits _ links rest rem' hf x hc with hc | hc
          · exact Or.inr (Or.inl (by rw [keys_cons]; exact List.mem_cons_of_mem _ hc))
          · exact Or.inr (Or.inr (hB name links (List.mem_cons_self _ _) x hc))
        · exact Or.inr (Or.inr hc)

theorem initFold_none (graph : Graph) (limits : List Name) :
    ∀ starts : List Name, starts.foldl (initStep graph limits) none = none := by
  intro starts
  induction starts with
  | nil => rfl
  | cons s rest ih => rw [List.foldl_cons]; exact ih

theorem initRemaining_aux (graph : Graph) (limits : List Name) :
    ∀ (starts : List Name) (acc d : Graph),
      starts.foldl (initStep graph limits) (some acc) = some d →
      ∀ x w, (x, w) ∈ d →
        (x, w) ∈ acc
          ∨ (x ∈ starts ∧ ∃ ls, lookupG graph x = some ls ∧ w = filterLinks limits ls) := by
  intro starts
  induction starts with
  | nil =>
    intro acc d h x w hm
    cases h
    exact Or.inl hm
  | cons s rest ih =>
    intro acc d h x w hm
    rw [List.foldl_cons] at h
    cases hg : lookupG graph s with
    | none =>
      rw [initStep, hg, initFold_none] at h
      cases h
    | some ls =>
      rw [initStep, hg] at h
      rcases ih _ d h x w hm with hin | ⟨hx, hex⟩
      · rcases mem_dinsert_sub hin with hin | ⟨rfl, rfl⟩
        · exact Or.inl hin
        · exact Or.inr ⟨List.mem_cons_self _ _, ls, hg, rfl⟩
      · exact Or.inr ⟨List.mem_cons_of_mem _ hx, hex⟩

theorem initRemaining_keys (graph : Graph) (limits : List Name) :
    ∀ (starts : List Name) (acc d : Graph),
      starts.foldl (initStep graph limits) (some acc) = some d →
      ∀ x ∈ keys d, x ∈ keys acc ∨ x ∈ starts := by
  intro starts
  induction starts with
  | nil =>
    intro acc d h x hm
    cases h
    exact Or.inl hm
  | cons s rest ih =>
    intro acc d h x hm
    rw [List.foldl_cons] at h
    cases hg : lookupG graph s with
    | none =>
      rw [initStep, hg, initFold_none] at h
      cases h
    | some ls =>
      rw [initStep, hg] at h
      rcases ih _ d h x hm with hin | hx
      · rw [keys_dinsert] at hin
        by_cases hs : s ∈ keys acc
        · rw [if_pos hs] at hin
          exact Or.inl hin
        · rw [if_neg hs] at hin
          rcases List.mem_append.mp hin with hin | hin
          · exact Or.inl hin
          · rcases List.mem_singleton.mp hin with rfl
            exact Or.inr (List.mem_cons_self _ _)
      · exact Or.inr (List.mem_cons_of_mem _ hx)

/-- Claim C10: whenever `subgraph` returns normally, the returned mapping is
closed under its own edges — every target in any returned edge set is a key
of the result — and no name in `limits` appears in any returned edge set. -/
theorem subgraph_closed_and_limit_free (g : Graph) (starts limits : List Name) (r : Graph)
    (h : subgraph g starts limits = some r) :
    ∀ x w, (x, w) ∈ r → ∀ l ∈ w, l ∈ keys r ∧ l ∉ limits := by
  rw [subgraph] at h
  cases hi : initRemaining g limits starts with
  | none => rw [hi] at h; cases h
  | some rem =>
    rw [hi] at h
    intro x w hm l hl
    have := subgraphLoop_closed g limits (g.length + 1) rem [] r h
      (by intro x w hm; simp at hm)
      (by
        intro x w hm l hl
        rcases initRemaining_aux g limits starts [] rem hi x w hm with hin | ⟨_, _, _, rfl⟩
        · simp at hin
        · exact (mem_filterLinks.mp hl).2)
      x w hm l hl
    exact ⟨this.2, this.1⟩

/-- Witness for C10 at the specification's own example graph. -/
theorem subgraph_closed_and_limit_free_witness :
    subgraph [("S", ["M", "X"]), ("M", ["E"]), ("X", ["E"]), ("E", [])] ["S"] ["X"]
        = some [("S", ["M"]), ("M", ["E"]), ("E", [])] ∧
      (∀ x w, (x, w) ∈ [("S", ["M"]), ("M", ["E"]), ("E", [])] → ∀ l ∈ w,
        l ∈ keys [("S", ["M"]), ("M", ["E"]), ("E", [])] ∧ l ∉ ["X"]) :=
  ⟨by decide,
    subgraph_closed_and_limit_free [("S", ["M", "X"]), ("M", ["E"]), ("X", ["E"]), ("E", [])]
      ["S"] ["X"] [("S", ["M"]), ("M", ["E"]), ("E", [])] (by decide)⟩

/-- Counterexample to claim C5: a limit node that is also a start IS
expanded.  With graph `{L: [A], A: []}`, starts `[L]` and limits `[L]`, the
limit node `L` is reached and its outgoing edge to `A` is explored, so `A`
appears in the result — the claim's "a limit node's own outgoing edges are
never explored and it is not expanded further" predicts `A` absent. -/
theorem subgraph_limit_start_expanded :
    subgraph [("L", ["A"]), ("A", [])] ["L"] ["L"] = some [("L", ["A"]), ("A", [])]
      ∧ "A" ∈ keys [("L", ["A"]), ("A", [])] := by decide

/-- Claim C5, amended: every target in `limits` is removed from every
recorded edge set, so no limit name appears in any returned edge set and a
limit node is never discovered through an edge — it appears in the result
only if listed in `starts`; a limit node that is a start has its
limit-filtered edge set recorded and its remaining edges explored like any
other node's (shown concretely on `{L: [A], A: []}`). -/
theorem subgraph_limits_walls_amended :
    (∀ (g : Graph) (starts limits : List Name) (r : Graph),
        subgraph g starts limits = some r →
          (∀ x w, (x, w) ∈ r → ∀ l ∈ w, l ∉ limits)
            ∧ (∀ x ∈ keys r, x ∈ limits → x ∈ starts))
      ∧ subgraph [("L", ["A"]), ("A", [])] ["L"] ["L"]
          = some [("L", ["A"]), ("A", [])] := by
  constructor
  · intro g starts limits r h
    rw [subgraph] at h
    cases hi : initRemaining g limits starts with
    | none => rw [hi] at h; cases h
    | some rem =>
      rw [hi] at h
      have hB : ∀ x w, (x, w) ∈ rem → ∀ l ∈ w, l ∉ limits := by
        intro x w hm l hl
        rcases initRemaining_aux g limits starts [] rem hi x w hm with hin | ⟨_, _, _, rfl⟩
        · simp at hin
        · exact (mem_filterLinks.mp hl).2
      constructor
      · intro x w hm l hl
        exact (subgraphLoop_closed g limits (g.length + 1) rem [] r h
          (by intro x w hm; simp at hm) hB x w hm l hl).1
      · intro x hx hlim
        rcases subgraphLoop_keys_from g limits (g.length + 1) rem [] r h hB x hx
          with hc | hc | hc
        · simp [keys] at hc
        · rcases initRemaining_keys g limits starts [] rem hi x hc with hc | hc
          · simp [keys] at hc
          · exact hc
        · exact absurd hlim hc
  · decide

/-- Witness for the amended C5 at the specification's example graph. -/
theorem subgraph_limits_walls_amended_witness :
    (∀ x w, (x, w) ∈ [("S", ["M"]), ("M", ["E"]), ("E", [])] → ∀ l ∈ w, l ∉ ["X"])
      ∧ (∀ x ∈ keys [("S", ["M"]), ("M", ["E"]), ("E", [])], x ∈ ["X"] → x ∈ ["S"]) :=
  subgraph_limits_walls_amended.1
    [("S", ["M", "X"]), ("M", ["E"]), ("X", ["E"]), ("E", [])]
    ["S"] ["X"] [("S", ["M"]), ("M", ["E"]), ("E", [])] (by decide)

/-! ### Claim C6: the round trip -/

theorem exists_entry_of_mem_keys {d : Graph} {x : Name} (h : x ∈ keys d) :
    ∃ w, (x, w) ∈ d := by
  have hs := lookupG_isSome_iff.mpr h
  obtain ⟨w, hw⟩ := Option.isSome_iff_exists.mp hs
  exact ⟨w, lookupG_mem hw⟩

theorem initRemaining_self_aux (g : Graph) :
    ∀ (l : List (Name × List Name)) (acc : Graph),
      (∀ p ∈ l, lookupG g p.1 = some p.2 ∧ p.2.Nodup) →
      (keys (acc ++ l)).Nodup →
      (keys l).foldl (initStep g []) (some acc) = some (acc ++ l) := by
  intro l
  induction l with
  | nil => intro acc _ _; simp [keys]
  | cons p rest ih =>
    intro acc hlk hnd
    obtain ⟨x, w⟩ := p
    rw [keys_cons, List.foldl_cons]
    obtain ⟨hx, hxnd⟩ := hlk (x, w) (List.mem_cons_self _ _)
    have hx' : lookupG g x = some w := hx
    have hxnd' : w.Nodup := hxnd
    have hfw : filterLinks [] w = w := filterLinks_eq_self hxnd' (by simp)
    simp only [initStep, hx', hfw]
    have hxacc : x ∉ keys acc := by
      rw [keys_append, List.nodup_append] at hnd
      intro hmem
      exact hnd.2.2 hmem (by rw [keys_cons]; exact List.mem_cons_self _ _)
    rw [dinsert_of_not_mem _ hxacc]
    have hnd' : (keys ((acc ++ [(x, w)]) ++ rest)).Nodup := by
      rw [List.append_assoc]
      exact hnd
    rw [ih (acc ++ [(x, w)]) (fun q hq => hlk q (List.mem_cons_of_mem _ hq)) hnd',
      List.append_assoc]
    rfl

theorem sgFold_id (g : Graph) (limits : List Name) (rc rest' : Graph) :
    ∀ links : List Name,
      (∀ l ∈ links, sgStep g limits rc (some rest') l = some rest') →
      links.foldl (sgStep g limits rc) (some rest') = some rest' := by
  intro links
  induction links with
  | nil => intro _; rfl
  | cons l rest ih =>
    intro hstep
    rw [List.foldl_cons, hstep l (List.mem_cons_self _ _)]
    exact ih (fun m hm => hstep m (List.mem_cons_of_mem _ hm))

theorem subgraphLoop_roundtrip (g : Graph) (hk : (keys g).Nodup)
    (hv : ∀ p ∈ g, p.2.Nodup) (hc : ∀ p ∈ g, ∀ t ∈ p.2, t ∈ keys g) :
    ∀ (fuel : Nat) (rest reached : Graph),
      g = reached ++ rest → rest.length < fuel →
      subgraphLoop g [] fuel rest reached = some g := by
  intro fuel
  induction fuel with
  | zero => intro rest reached _ h; exact absurd h (Nat.not_lt_zero _)
  | succ fuel ih =>
    intro rest reached hsplit hlen
    cases rest with
    | nil =>
      rw [subgraphLoop, hsplit, List.append_nil]
    | cons p rest' =>
      obtain ⟨name, links⟩ := p
      have hnd : (keys (reached ++ (name, links) :: rest')).Nodup := by
        rw [← hsplit]; exact hk
      have hdisj : (keys reached).Disjoint (keys ((name, links) :: rest')) := by
        rw [keys_append, List.nodup_append] at hnd
        exact hnd.2.2
      have hname_not : name ∉ keys reached := by
        intro hmem
        exact hdisj hmem (by rw [keys_cons]; exact List.mem_cons_self _ _)
      have hre : dinsert reached name links = reached ++ [(name, links)] :=
        dinsert_of_not_mem _ hname_not
      have hmemg : (name, links) ∈ g := by
        rw [hsplit]
        exact List.mem_append_right _ (List.mem_cons_self _ _)
      have hfold : links.foldl (sgStep g [] (dinsert reached name links)) (some rest')
          = some rest' := by
        apply sgFold_id
        intro l hl
        by_cases hcontains : containsKey (dinsert reached name links) l = true
        · rw [sgStep, if_pos hcontains]
        · rw [sgStep, if_neg hcontains]
          have hlg : l ∈ keys g := hc (name, links) hmemg l hl
          have hlnotup : l ∉ keys (dinsert reached name links) := by
            intro hmem
            exact hcontains (containsKey_iff.mpr hmem)
          have hlrest : l ∈ keys rest' := by
            rw [hsplit, keys_append, keys_cons] at hlg
            rcases List.mem_append.mp hlg with hm | hm
            · exact absurd (by
                rw [hre, keys_append]
                exact List.mem_append_left _ hm) hlnotup
            · rcases List.mem_cons.mp hm with rfl | hm
              · exact absurd (by
                  rw [hre, keys_append, keys_cons]
                  exact List.mem_append_right _ (List.mem_cons_self _ _)) hlnotup
              · exact hm
          obtain ⟨wl, hwl⟩ := exists_entry_of_mem_keys hlrest
          have hwlg : (l, wl) ∈ g := by
            rw [hsplit]
            exact List.mem_append_right _ (List.mem_cons_of_mem _ hwl)
          have hlkg : lookupG g l = some wl := lookupG_of_mem hk hwlg
          simp only [hlkg]
          have hndrest : (keys rest').Nodup := by
            rw [keys_append, List.nodup_append] at hnd
            rw [keys_cons, List.nodup_cons] at hnd
            exact hnd.2.1.2
          have hfw : filterLinks [] wl = wl := filterLinks_eq_self (hv (l, wl) hwlg) (by simp)
          rw [hfw, dinsert_self hndrest (lookupG_of_mem hndrest hwl)]
      simp only [subgraphLoop, hfold]
      refine ih rest' (dinsert reached name links) ?_ ?_
      · rw [hre, hsplit, List.append_assoc]
        rfl
      · simp only [List.length_cons] at hlen
        omega

/-- Claim C6: for every well-formed link graph (unique keys, duplicate-free
edge sets, every edge target a key), calling `subgraph` with all keys as
starts and no limits returns exactly the original graph. -/
theorem subgraph_roundtrip (g : Graph) (hw : WFGraph g) :
    subgraph g (keys g) [] = some g := by
  obtain ⟨hk, hv, hc⟩ := hw
  have hinit : initRemaining g [] (keys g) = some g := by
    have haux := initRemaining_self_aux g g []
      (fun p hp => ⟨lookupG_of_mem hk (by cases p; exact hp), hv p hp⟩)
      (by simpa using hk)
    rw [initRemaining]
    simpa using haux
  simp only [subgraph, hinit]
  exact subgraphLoop_roundtrip g hk hv hc (g.length + 1) g [] rfl (Nat.lt_succ_self _)

/-- Witness for C6 at a concrete three-node graph. -/
theorem subgraph_roundtrip_witness :
    WFGraph [("a", ["b"]), ("b", ["a", "c"]), ("c", [])] ∧
      subgraph [("a", ["b"]), ("b", ["a", "c"]), ("c", [])]
          (keys [("a", ["b"]), ("b", ["a", "c"]), ("c", [])]) []
        = some [("a", ["b"]), ("b", ["a", "c"]), ("c", [])] :=
  ⟨by decide, subgraph_roundtrip [("a", ["b"]), ("b", ["a", "c"]), ("c", [])] (by decide)⟩

/-! ### Claim C3: cycle breaking and the sorted remainder -/

theorem orderLoop_no_priority_left (lt : Graph) :
    ∀ fuel ready lf ordered, ready.length + lf.length < fuel →
      ∀ n ∈ priorityNames, containsKey (orderLoop lt fuel ready lf ordered).2 n = false := by
  intro fuel
  induction fuel with
  | zero => intro ready lf ordered h; exact absurd h (Nat.not_lt_zero _)
  | succ fuel ih =>
    intro ready lf ordered hfuel
    rw [orderLoop]
    split
    · next name hl =>
      have hdec := getLast?_decomp hl
      have hlen : ready.length = ready.dropLast.length + 1 := by
        conv_lhs => rw [hdec]
        simp
      have hmeas : (processLinks lt name lf ready.dropLast).2.length
          + (processLinks lt name lf ready.dropLast).1.length < fuel := by
        rw [processLinks_length]; omega
      exact ih _ _ _ hmeas
    · next hl =>
      split
      · next hf =>
        intro n hn
        have hnone := List.find?_eq_none.mp hf n hn
        simpa using hnone
      · next name hf =>
        have hmem := findPriority_containsKey hf
        have hlf := eraseKey_length hmem
        have hmeas : (processLinks lt name (eraseKey lf name) []).2.length
            + (processLinks lt name (eraseKey lf name) []).1.length < fuel := by
          rw [processLinks_length]
          simp only [List.length_nil, Nat.zero_add]
          omega
        exact ih _ _ _ hmeas

/-- Claim C3: when the ready stack empties, the first priority name still
among the remaining nodes is force-readied with its incoming-link
bookkeeping discarded (shown concretely: the two-cycle of priority names is
broken at "Makeover Options", the first of the list); when no priority name
remains the loop stops, and the still-unordered nodes are appended in
lexicographic order of name (no priority name is ever left in the remainder,
the appended tail is the sorted remainder — shown concretely on a
double two-cycle with no priority names). -/
theorem order_graph_cycle_breaking :
    (∀ g : Graph,
        (∀ n ∈ priorityNames, containsKey (orderState g).2 n = false)
          ∧ order_graph g = (orderState g).1 ++ sortNames (keys (orderState g).2)
          ∧ List.Sorted lexLe (sortNames (keys (orderState g).2)))
      ∧ order_graph [("Makeover Options", ["Rosalind actions"]),
          ("Rosalind actions", ["Makeover Options"])]
          = ["Makeover Options", "Rosalind actions"]
      ∧ order_graph [("x", ["y"]), ("y", ["x"]), ("b", ["a"]), ("a", ["b"])]
          = ["a", "b", "x", "y"] := by
  refine ⟨fun g => ⟨?_, rfl, List.sorted_insertionSort lexLe _⟩, by decide, by decide⟩
  have hdef : orderState g = orderLoop g ((seedReady (buildLinkFrom g)).length
      + (removeKeys (buildLinkFrom g) (seedReady (buildLinkFrom g))).length + 1)
      (seedReady (buildLinkFrom g)) (removeKeys (buildLinkFrom g) (seedReady (buildLinkFrom g)))
      [] := rfl
  rw [hdef]
  exact orderLoop_no_priority_left g _ _ _ _ (Nat.lt_succ_self _)

/-! ### Claim C4: the seed order of the ready stack -/

theorem buildLinkFrom_edgeless_aux :
    ∀ (l : List (Name × List Name)) (acc : Graph), (∀ p ∈ l, p.2 = []) →
      l.foldl (fun acc p => p.2.foldl (fun a m => addSource a m p.1) acc) acc = acc := by
  intro l
  induction l with
  | nil => intro acc _; rfl
  | cons p rest ih =>
    intro acc he
    rw [List.foldl_cons, he p (List.mem_cons_self _ _)]
    exact ih acc (fun q hq => he q (List.mem_cons_of_mem _ hq))

theorem buildLinkFrom_edgeless {g : Graph} (he : ∀ p ∈ g, p.2 = []) :
    buildLinkFrom g = initLinkFrom g :=
  buildLinkFrom_edgeless_aux g (initLinkFrom g) he

theorem seedReady_initLinkFrom {g : Graph} (hk : (keys g).Nodup) :
    seedReady (initLinkFrom g) = (keys g).reverse := by
  rw [seedReady, initLinkFrom_eq hk]
  have hfilter : (g.map (fun p => (p.1, ([] : List Name)))).filter (fun p => p.2.isEmpty)
      = g.map (fun p => (p.1, ([] : List Name))) := by
    rw [List.filter_eq_self]
    intro p hp
    rw [List.mem_map] at hp
    obtain ⟨q, _, rfl⟩ := hp
    rfl
  rw [hfilter, List.map_map]
  rfl

theorem removeKeys_all {lf : Graph} {ns : List Name} (hk : (keys lf).Nodup)
    (hns : ns.Nodup) (hmem : ∀ n ∈ ns, n ∈ keys lf) (hlen : ns.length = lf.length) :
    removeKeys lf ns = [] := by
  have h := congrArg Multiset.card (removeKeys_mkeys hk hns hmem)
  simp only [Multiset.card_add, Multiset.coe_card, mkeys, keys, List.length_map] at h
  have hzero : (removeKeys lf ns).length = 0 := by omega
  exact List.length_eq_zero.mp hzero

theorem processLinks_edgeless {lt : Graph} (he : ∀ p ∈ lt, p.2 = []) (name : Name)
    (rd : List Name) : processLinks lt name [] rd = ([], rd) := by
  rw [processLinks]
  cases hlk : lookupG lt name with
  | none => rfl
  | some ls =>
    have : ls = [] := he (name, ls) (lookupG_mem hlk)
    subst this
    rfl

theorem orderLoop_edgeless (lt : Graph) (he : ∀ p ∈ lt, p.2 = []) :
    ∀ fuel ready ordered, ready.length < fuel →
      orderLoop lt fuel ready [] ordered = (ordered ++ ready.reverse, []) := by
  intro fuel
  induction fuel with
  | zero => intro ready ordered h; exact absurd h (Nat.not_lt_zero _)
  | succ fuel ih =>
    intro ready ordered hfuel
    rw [orderLoop]
    cases hl : ready.getLast? with
    | some name =>
      have hdec := getLast?_decomp hl
      have hlen : ready.length = ready.dropLast.length + 1 := by
        conv_lhs => rw [hdec]
        simp
      simp only [processLinks_edgeless he]
      rw [ih ready.dropLast (ordered ++ [name]) (by omega)]
      have hrev : ready.reverse = name :: ready.dropLast.reverse := by
        conv_lhs => rw [hdec]
        rw [List.reverse_append]
        rfl
      rw [hrev, List.append_assoc]
      rfl
    | none =>
      have hready : ready = [] := List.getLast?_eq_none_iff.mp hl
      subst hready
      have hfp : findPriority ([] : Graph) = none := rfl
      rw [hfp]
      simp

/-- Counterexample to claim C4: for a graph with no edges the output emits
the first key of the original order first, not the last — the seed list is
reversed before being used as a pop-from-the-end stack, which restores the
original key order. -/
theorem order_graph_edgeless_not_last_first :
    order_graph [("a", []), ("b", [])] = ["a", "b"]
      ∧ order_graph [("a", []), ("b", [])] ≠ ["b", "a"] := by decide

/-- Claim C4, amended: the ready list is seeded with all zero-incoming
nodes in their original relative order and then reversed, so that popping
from the end emits the seed in the original order — for a graph with no
edges the output equals the key order, first key first.  Nodes made ready
later are pushed onto the stack top and pop before older ready nodes, shown
concretely: in `{s: [y], x: [], y: []}` the node `y` becomes ready after
`x` yet is emitted before it. -/
theorem order_graph_edgeless_amended :
    (∀ g : Graph, (keys g).Nodup → (∀ p ∈ g, p.2 = []) → order_graph g = keys g)
      ∧ order_graph [("s", ["y"]), ("x", []), ("y", [])] = ["s", "y", "x"] := by
  refine ⟨fun g hk he => ?_, by decide⟩
  have hb : buildLinkFrom g = initLinkFrom g := buildLinkFrom_edgeless he
  have hkeys0 : keys (initLinkFrom g) = keys g := keys_initLinkFrom hk
  have hseed : seedReady (initLinkFrom g) = (keys g).reverse := seedReady_initLinkFrom hk
  have hlen0 : (initLinkFrom g).length = g.length := by
    have hlk := congrArg List.length hkeys0
    simpa [keys] using hlk
  have hrem : removeKeys (initLinkFrom g) ((keys g).reverse) = [] := by
    apply removeKeys_all (by rw [hkeys0]; exact hk)
    · exact List.nodup_reverse.mpr hk
    · intro n hn
      rw [hkeys0]
      rw [List.mem_reverse] at hn
      exact hn
    · simp [keys, hlen0]
  have hdef : orderState g = orderLoop g ((seedReady (buildLinkFrom g)).length
      + (removeKeys (buildLinkFrom g) (seedReady (buildLinkFrom g))).length + 1)
      (seedReady (buildLinkFrom g)) (removeKeys (buildLinkFrom g) (seedReady (buildLinkFrom g)))
      [] := rfl
  have hstate : orderState g = (keys g, []) := by
    rw [hdef, hb, hseed, hrem]
    rw [orderLoop_edgeless g he _ _ _ (by simp)]
    simp
  rw [order_graph, hstate]
  simp [sortNames, keys, List.insertionSort]

/-- Witness for the amended C4 at a concrete edgeless graph. -/
theorem order_graph_edgeless_amended_witness :
    order_graph [("a", []), ("b", [])] = keys [("a", []), ("b", [])] :=
  order_graph_edgeless_amended.1 [("a", []), ("b", [])] (by decide) (by decide)

/-! ### Claim C2: the characterization of one relaxation pass -/

theorem relaxFold_spec (p : Name) :
    ∀ (L : List Name) (lf : Graph) (r : List Name),
      (keys lf).Nodup → L.Nodup → (∀ x w, (x, w) ∈ lf → w.Nodup) →
      (∀ x w', (x, w') ∈ (L.foldl (relaxEdge p) (lf, r)).1 ↔
          (∃ w₀, (x, w₀) ∈ lf ∧
            ((x ∉ L ∧ w' = w₀) ∨ (x ∈ L ∧ w' = w₀.erase p ∧ w₀.erase p ≠ []))))
        ∧ (∀ b, b ∈ (L.foldl (relaxEdge p) (lf, r)).2 ↔
            b ∈ r ∨ ∃ w₀, (b, w₀) ∈ lf ∧ b ∈ L ∧ w₀.erase p = [])
        ∧ (keys (L.foldl (relaxEdge p) (lf, r)).1).Nodup := by
  intro L
  induction L with
  | nil =>
    intro lf r hk _ _
    refine ⟨?_, ?_, hk⟩
    · intro x w'
      constructor
      · intro hm
        exact ⟨w', hm, Or.inl ⟨List.not_mem_nil x, rfl⟩⟩
      · rintro ⟨w₀, hm, ⟨-, rfl⟩ | ⟨hx, -⟩⟩
        · exact hm
        · exact absurd hx (List.not_mem_nil x)
    · intro b
      constructor
      · intro hm
        exact Or.inl hm
      · rintro (hm | ⟨w₀, -, hb, -⟩)
        · exact hm
        · exact absurd hb (List.not_mem_nil b)
  | cons l L' ih =>
    intro lf r hk hL hvnd
    rw [List.nodup_cons] at hL
    rw [List.foldl_cons]
    cases hlk : lookupG lf l with
    | none =>
      have hstep : relaxEdge p (lf, r) l = (lf, r) := by
        rw [relaxEdge]
        simp [hlk]
      rw [hstep]
      obtain ⟨ih1, ih2, ih3⟩ := ih lf r hk hL.2 hvnd
      have hlnotin : ∀ w₀ : List Name, (l, w₀) ∈ lf → False := by
        intro w₀ hm
        have hs := lookupG_isSome_iff.mpr (mem_keys_of_mem hm)
        rw [hlk] at hs
        simp at hs
      refine ⟨?_, ?_, ih3⟩
      · intro x w'
        rw [ih1]
        constructor
        · rintro ⟨w₀, hm, hcase⟩
          refine ⟨w₀, hm, ?_⟩
          have hxl : x ≠ l := by rintro rfl; exact hlnotin w₀ hm
          rcases hcase with ⟨hnx, rfl⟩ | ⟨hx, h2⟩
          · exact Or.inl ⟨fun hmem => (List.mem_cons.mp hmem).elim hxl hnx, rfl⟩
          · exact Or.inr ⟨List.mem_cons_of_mem _ hx, h2⟩
        · rintro ⟨w₀, hm, hcase⟩
          refine ⟨w₀, hm, ?_⟩
          have hxl : x ≠ l := by rintro rfl; exact hlnotin w₀ hm
          rcases hcase with ⟨hnx, rfl⟩ | ⟨hx, h2⟩
          · exact Or.inl ⟨fun hmem => hnx (List.mem_cons_of_mem _ hmem), rfl⟩
          · rcases List.mem_cons.mp hx with rfl | hx
            · exact absurd rfl hxl
            · exact Or.inr ⟨hx, h2⟩
      · intro b
        rw [ih2]
        constructor
        · rintro (hm | ⟨w₀, hm, hb, h2⟩)
          · exact Or.inl hm
          · exact Or.inr ⟨w₀, hm, List.mem_cons_of_mem _ hb, h2⟩
        · rintro (hm | ⟨w₀, hm, hb, h2⟩)
          · exact Or.inl hm
          · have hbl : b ≠ l := by rintro rfl; exact hlnotin w₀ hm
            rcases List.mem_cons.mp hb with rfl | hb
            · exact absurd rfl hbl
            · exact Or.inr ⟨w₀, hm, hb, h2⟩
    | some w =>
      have hlmem : (l, w) ∈ lf := lookupG_mem hlk
      have hlkeys : l ∈ keys lf := mem_keys_of_mem hlmem
      have hwnd : w.Nodup := hvnd l w hlmem
      have huniq : ∀ w₀ : List Name, (l, w₀) ∈ lf → w₀ = w := by
        intro w₀ hm
        have h2 := lookupG_of_mem hk hm
        rw [hlk] at h2
        exact (Option.some.inj h2).symm
      by_cases he : w.erase p = []
      · have hstep : relaxEdge p (lf, r) l = (eraseKey lf l, r ++ [l]) := by
          rw [relaxEdge]
          simp [hlk, he]
        rw [hstep]
        have hk' : (keys (eraseKey lf l)).Nodup := nodup_keys_eraseKey hk
        have hvnd' : ∀ x w', (x, w') ∈ eraseKey lf l → w'.Nodup := by
          intro x w' hm
          exact hvnd x w' ((mem_eraseKey hk).mp hm).1
        obtain ⟨ih1, ih2, ih3⟩ := ih (eraseKey lf l) (r ++ [l]) hk' hL.2 hvnd'
        refine ⟨?_, ?_, ih3⟩
        · intro x w'
          rw [ih1]
          constructor
          · rintro ⟨w₀, hm, hcase⟩
            obtain ⟨hmlf, hxl⟩ := (mem_eraseKey hk).mp hm
            refine ⟨w₀, hmlf, ?_⟩
            rcases hcase with ⟨hnx, rfl⟩ | ⟨hx, h2⟩
            · exact Or.inl ⟨fun hmem => (List.mem_cons.mp hmem).elim hxl hnx, rfl⟩
            · exact Or.inr ⟨List.mem_cons_of_mem _ hx, h2⟩
          · rintro ⟨w₀, hm, hcase⟩
            by_cases hxl : x = l
            · subst hxl
              have hw0 : w₀ = w := huniq w₀ hm
              subst hw0
              rcases hcase with ⟨hnx, rfl⟩ | ⟨hx, h2, h3⟩
              · exact absurd (List.mem_cons_self _ _) hnx
              · exact absurd he h3
            · refine ⟨w₀, (mem_eraseKey hk).mpr ⟨hm, hxl⟩, ?_⟩
              rcases hcase with ⟨hnx, rfl⟩ | ⟨hx, h2⟩
              · exact Or.inl ⟨fun hmem => hnx (List.mem_cons_of_mem _ hmem), rfl⟩
              · rcases List.mem_cons.mp hx with rfl | hx
                · exact absurd rfl hxl
                · exact Or.inr ⟨hx, h2⟩
        · intro b
          rw [ih2]
          constructor
          · rintro (hm | ⟨w₀, hm, hb, h2⟩)
            · rcases List.mem_append.mp hm with hm | hm
              · exact Or.inl hm
              · rcases List.mem_singleton.mp hm with rfl
                exact Or.inr ⟨w, hlmem, List.mem_cons_self _ _, he⟩
            · obtain ⟨hmlf, hbl⟩ := (mem_eraseKey hk).mp hm
              exact Or.inr ⟨w₀, hmlf, List.mem_cons_of_mem _ hb, h2⟩
          · rintro (hm | ⟨w₀, hm, hb, h2⟩)
            · exact Or.inl (List.mem_append_left _ hm)
            · by_cases hbl : b = l
              · subst hbl
                exact Or.inl (List.mem_append_right _ (List.mem_singleton_self _))
              · rcases List.mem_cons.mp hb with rfl | hb
                · exact absurd rfl hbl
                · exact Or.inr ⟨w₀, (mem_eraseKey hk).mpr ⟨hm, hbl⟩, hb, h2⟩
      · have hstep : relaxEdge p (lf, r) l = (setVal lf l (w.erase p), r) := by
          rw [relaxEdge]
          simp [hlk, he]
        rw [hstep]
        have hk' : (keys (setVal lf l (w.erase p))).Nodup := by
          rw [keys_setVal]; exact hk
        have hvnd' : ∀ x w', (x, w') ∈ setVal lf l (w.erase p) → w'.Nodup := by
          intro x w' hm
          rcases (mem_setVal hk).mp hm with ⟨-, hm2⟩ | ⟨-, rfl, -⟩
          · exact hvnd x w' hm2
          · exact hwnd.erase p
        obtain ⟨ih1, ih2, ih3⟩ := ih (setVal lf l (w.erase p)) r hk' hL.2 hvnd'
        refine ⟨?_, ?_, ih3⟩
        · intro x w'
          rw [ih1]
          constructor
          · rintro ⟨w₀, hm, hcase⟩
            rcases (mem_setVal hk).mp hm with ⟨hxl, hmlf⟩ | ⟨hxl, rfl, hmem⟩
            · refine ⟨w₀, hmlf, ?_⟩
              rcases hcase with ⟨hnx, rfl⟩ | ⟨hx, h2⟩
              · exact Or.inl ⟨fun hmem2 => (List.mem_cons.mp hmem2).elim hxl hnx, rfl⟩
              · exact Or.inr ⟨List.mem_cons_of_mem _ hx, h2⟩
            · subst hxl
              refine ⟨w, hlmem, ?_⟩
              rcases hcase with ⟨hnx, rfl⟩ | ⟨hx, h2, h3⟩
              · exact Or.inr ⟨List.mem_cons_self _ _, rfl, he⟩
              · exact absurd hx hL.1
          · rintro ⟨w₀, hm, hcase⟩
            by_cases hxl : x = l
            · subst hxl
              have hw0 : w₀ = w := huniq w₀ hm
              rcases hcase with ⟨hnx, rfl⟩ | ⟨hx, h2, h3⟩
              · exact absurd (List.mem_cons_self _ _) hnx
              · subst h2
                refine ⟨w₀.erase p, ?_, Or.inl ⟨hL.1, rfl⟩⟩
                rw [hw0]
                exact (mem_setVal hk).mpr (Or.inr ⟨rfl, rfl, hlkeys⟩)
            · refine ⟨w₀, (mem_setVal hk).mpr (Or.inl ⟨hxl, hm⟩), ?_⟩
              rcases hcase with ⟨hnx, rfl⟩ | ⟨hx, h2⟩
              · exact Or.inl ⟨fun hmem => hnx (List.mem_cons_of_mem _ hmem), rfl⟩
              · rcases List.mem_cons.mp hx with rfl | hx
                · exact absurd rfl hxl
                · exact Or.inr ⟨hx, h2⟩
        · intro b
          rw [ih2]
          constructor
          · rintro (hm | ⟨w₀, hm, hb, h2⟩)
            · exact Or.inl hm
            · rcases (mem_setVal hk).mp hm with ⟨hbl, hmlf⟩ | ⟨hbl, rfl, hmem⟩
              · exact Or.inr ⟨w₀, hmlf, List.mem_cons_of_mem _ hb, h2⟩
              · exfalso
                have hnp : p ∉ w.erase p := fun hmem2 => (hwnd.mem_erase_iff.mp hmem2).1 rfl
                rw [List.erase_of_not_mem hnp] at h2
                exact he h2
          · rintro (hm | ⟨w₀, hm, hb, h2⟩)
            · exact Or.inl hm
            · by_cases hbl : b = l
              · subst hbl
                have hw0 : w₀ = w := huniq w₀ hm
                subst hw0
                exact absurd h2 he
              · rcases List.mem_cons.mp hb with rfl | hb
                · exact absurd rfl hbl
                · exact Or.inr ⟨w₀, (mem_setVal hk).mpr (Or.inl ⟨hbl, hm⟩), hb, h2⟩

theorem hasEdge_source_mem {g : Graph} {a b : Name} (h : hasEdge g a b) : a ∈ keys g := by
  obtain ⟨ls, hlk, -⟩ := h
  exact lookupG_isSome_iff.mp (by rw [hlk]; rfl)

theorem mem_out_iff {lt : Graph} {n x : Name} :
    x ∈ ((lookupG lt n).getD []).reverse ↔ hasEdge lt n x := by
  rw [List.mem_reverse]
  cases hlk : lookupG lt n with
  | none => simp [hasEdge, hlk]
  | some ls => simp [hasEdge, hlk]

theorem out_nodup {lt : Graph} (hv : ∀ p ∈ lt, p.2.Nodup) (n : Name) :
    (((lookupG lt n).getD []).reverse).Nodup := by
  rw [List.nodup_reverse]
  cases hlk : lookupG lt n with
  | none => simp
  | some ls =>
    have := hv (n, ls) (lookupG_mem hlk)
    simpa using this

theorem before_append_right {l : List Name} {a b : Name} (h : before l a b) (t : List Name) :
    before (l ++ t) a b := by
  obtain ⟨l₁, l₂, l₃, rfl⟩ := h
  exact ⟨l₁, l₂, l₃ ++ t, by simp⟩

theorem before_snoc {l : List Name} {a b : Name} (ha : a ∈ l) : before (l ++ [b]) a b := by
  obtain ⟨s, t, rfl⟩ := List.append_of_mem ha
  refine ⟨s, t, [], ?_⟩
  simp

theorem eq_of_mem_of_erase_eq_nil {l : List Name} {a x : Name} (he : l.erase a = [])
    (hx : x ∈ l) : x = a := by
  cases l with
  | nil => simp at hx
  | cons y t =>
    by_cases hy : y = a
    · subst hy
      rw [List.erase_cons_head] at he
      subst he
      rcases List.mem_singleton.mp hx with rfl
      rfl
    · rw [List.erase_cons_tail] at he
      · cases he
      · simpa using hy

theorem eraseKey_sublist (g : Graph) (n : Name) : (eraseKey g n).Sublist g := by
  induction g with
  | nil => simp [eraseKey]
  | cons p rest ih =>
    obtain ⟨k, v⟩ := p
    rw [eraseKey]
    split
    · exact List.sublist_cons_self _ _
    · exact ih.cons₂ _

theorem removeKeys_sublist (ns : List Name) : ∀ lf : Graph, (removeKeys lf ns).Sublist lf := by
  induction ns with
  | nil => intro lf; exact List.Sublist.refl _
  | cons n rest ih =>
    intro lf
    have h1 : (removeKeys (eraseKey lf n) rest).Sublist (eraseKey lf n) := ih _
    exact h1.trans (eraseKey_sublist lf n)

theorem mem_removeKeys_sub {lf : Graph} {ns : List Name} {p : Name × List Name}
    (h : p ∈ removeKeys lf ns) : p ∈ lf :=
  (removeKeys_sublist ns lf).mem h

theorem nodup_keys_removeKeys {ns : List Name} {lf : Graph} (hk : (keys lf).Nodup) :
    (keys (removeKeys lf ns)).Nodup :=
  hk.sublist ((removeKeys_sublist ns lf).map Prod.fst)

theorem not_mem_keys_removeKeys {ns : List Name} :
    ∀ {lf : Graph} {x : Name}, (keys lf).Nodup → x ∈ ns → x ∉ keys (removeKeys lf ns) := by
  induction ns with
  | nil => intro lf x _ hx; simp at hx
  | cons n rest ih =>
    intro lf x hk hx
    have hstep : removeKeys lf (n :: rest) = removeKeys (eraseKey lf n) rest := rfl
    rw [hstep]
    rcases List.mem_cons.mp hx with rfl | hx
    · intro hmem
      have hsub : (keys (removeKeys (eraseKey lf x) rest)).Sublist (keys (eraseKey lf x)) :=
        (removeKeys_sublist rest _).map Prod.fst
      have hx2 : x ∈ keys (eraseKey lf x) := hsub.mem hmem
      by_cases hxk : x ∈ keys lf
      · have hperm := keys_perm_eraseKey hxk
        have hnd2 : (x :: keys (eraseKey lf x)).Nodup := hperm.nodup hk
        rw [List.nodup_cons] at hnd2
        exact hnd2.1 hx2
      · exact hxk ((keys_eraseKey_sublist lf x).mem hx2)
    · exact ih (nodup_keys_eraseKey hk) hx

theorem mem_seedReady_of_empty {lf : Graph} {x : Name} (h : (x, []) ∈ lf) :
    x ∈ seedReady lf := by
  rw [seedReady, List.mem_reverse, List.mem_map]
  exact ⟨(x, []), List.mem_filter.mpr ⟨h, by simp⟩, rfl⟩

theorem orderStep_inv {lt : Graph} (hv : ∀ p ∈ lt, p.2.Nodup)
    {ready : List Name} {lf : Graph} {ordered : List Name} {name : Name}
    (inv : OrderInv lt ready lf ordered) (hlast : ready.getLast? = some name) :
    OrderInv lt (processLinks lt name lf ready.dropLast).2
      (processLinks lt name lf ready.dropLast).1 (ordered ++ [name]) := by
  have hdec := getLast?_decomp hlast
  have hname_mem : name ∈ ready := by
    rw [hdec]
    exact List.mem_append_right _ (List.mem_singleton_self _)
  obtain ⟨spec1, spec2, spec3⟩ := relaxFold_spec name (((lookupG lt name).getD []).reverse)
    lf ready.dropLast inv.keysNd (out_nodup hv name) (fun x w hm => inv.wnd x w hm)
  refine ⟨?_, spec3, ?_, ?_, ?_, ?_, ?_⟩
  · have hpm := processLinks_mkeys lt name lf ready.dropLast
    have hready : (ready : Multiset Name)
        = (ready.dropLast : Multiset Name) + (([name] : List Name) : Multiset Name) := by
      conv_lhs => rw [hdec]
      rw [Multiset.coe_add]
    have hperm := inv.perm
    rw [hready] at hperm
    rw [add_assoc, hpm, ← hperm]
    simp only [← Multiset.coe_add]
    abel
  · intro x w' hm s
    rcases (spec1 x w').mp hm with ⟨w₀, hm₀, hcase⟩
    have hchar := inv.wchar x w₀ hm₀
    rcases hcase with ⟨hnx, rfl⟩ | ⟨hx, rfl, hne⟩
    · have hnedge : ¬ hasEdge lt name x := fun he => hnx (mem_out_iff.mpr he)
      constructor
      · intro hs
        obtain ⟨hedge, hnord⟩ := (hchar s).mp hs
        refine ⟨hedge, ?_⟩
        intro hmem
        rcases List.mem_append.mp hmem with hmem | hmem
        · exact hnord hmem
        · rcases List.mem_singleton.mp hmem with rfl
          exact hnedge hedge
      · rintro ⟨hedge, hnord⟩
        exact (hchar s).mpr ⟨hedge, fun hmem => hnord (List.mem_append_left _ hmem)⟩
    · have hw₀nd : w₀.Nodup := inv.wnd x w₀ hm₀
      rw [hw₀nd.mem_erase_iff]
      constructor
      · rintro ⟨hsne, hs⟩
        obtain ⟨hedge, hnord⟩ := (hchar s).mp hs
        refine ⟨hedge, ?_⟩
        intro hmem
        rcases List.mem_append.mp hmem with hmem | hmem
        · exact hnord hmem
        · exact hsne (List.mem_singleton.mp hmem)
      · rintro ⟨hedge, hnord⟩
        have hsne : s ≠ name := by
          intro hs
          exact hnord (List.mem_append_right _ (by rw [hs]; exact List.mem_singleton_self _))
        exact ⟨hsne, (hchar s).mpr ⟨hedge, fun hmem => hnord (List.mem_append_left _ hmem)⟩⟩
  · intro x w' hm
    rcases (spec1 x w').mp hm with ⟨w₀, hm₀, hcase⟩
    rcases hcase with ⟨-, rfl⟩ | ⟨-, rfl, -⟩
    · exact inv.wnd _ _ hm₀
    · exact (inv.wnd _ _ hm₀).erase name
  · intro x w' hm
    rcases (spec1 x w').mp hm with ⟨w₀, hm₀, hcase⟩
    rcases hcase with ⟨-, rfl⟩ | ⟨-, rfl, hne⟩
    · exact inv.wne _ _ hm₀
    · exact hne
  · intro b hb s hedge
    rcases (spec2 b).mp hb with hbr | ⟨w₀, hm₀, hbt, he⟩
    · have hbready : b ∈ ready := by
        rw [hdec]
        exact List.mem_append_left _ hbr
      exact List.mem_append_left _ (inv.rdy b hbready s hedge)
    · by_cases hs : s = name
      · subst hs
        exact List.mem_append_right _ (List.mem_singleton_self _)
      · have hchar := inv.wchar b w₀ hm₀ s
        by_cases hsw : s ∈ w₀
        · exact absurd (eq_of_mem_of_erase_eq_nil he hsw) hs
        · have hnot : ¬ (hasEdge lt s b ∧ s ∉ ordered) := fun hcontra => hsw (hchar.mpr hcontra)
          push_neg at hnot
          exact List.mem_append_left _ (hnot hedge)
  · intro a b hedge hb
    rcases List.mem_append.mp hb with hb | hb
    · exact before_append_right (inv.ord a b hedge hb) _
    · rcases List.mem_singleton.mp hb with rfl
      exact before_snoc (inv.rdy b hname_mem a hedge)

theorem addTargets_spec (src : Name) :
    ∀ (ls : List Name) (acc : Graph), (keys acc).Nodup →
      keys (ls.foldl (fun a m => addSource a m src) acc) = keys acc
        ∧ ∀ x w', (x, w') ∈ ls.foldl (fun a m => addSource a m src) acc →
            ∃ w₀, (x, w₀) ∈ acc ∧ (∀ s, s ∈ w' ↔ s ∈ w₀ ∨ (s = src ∧ x ∈ ls))
              ∧ (w₀.Nodup → w'.Nodup) := by
  intro ls
  induction ls with
  | nil =>
    intro acc _
    refine ⟨rfl, ?_⟩
    intro x w' hm
    exact ⟨w', hm, fun s => by simp, fun h => h⟩
  | cons l ls' ih =>
    intro acc hk
    rw [List.foldl_cons]
    cases hlk : lookupG acc l with
    | none =>
      have hstep : addSource acc l src = acc := by simp [addSource, hlk]
      rw [hstep]
      obtain ⟨ihk, ihm⟩ := ih acc hk
      refine ⟨ihk, ?_⟩
      intro x w' hm
      obtain ⟨w₀, hm₀, hiff, hnd⟩ := ihm x w' hm
      have hxl : x ≠ l := by
        rintro rfl
        have hs := lookupG_isSome_iff.mpr (mem_keys_of_mem hm₀)
        rw [hlk] at hs
        simp at hs
      refine ⟨w₀, hm₀, ?_, hnd⟩
      intro s
      rw [hiff s]
      constructor
      · rintro (hs | ⟨rfl, hmem⟩)
        · exact Or.inl hs
        · exact Or.inr ⟨rfl, List.mem_cons_of_mem _ hmem⟩
      · rintro (hs | ⟨rfl, hmem⟩)
        · exact Or.inl hs
        · rcases List.mem_cons.mp hmem with rfl | hmem
          · exact absurd rfl hxl
          · exact Or.inr ⟨rfl, hmem⟩
    | some w =>
      by_cases hsrc : src ∈ w
      · have hstep : addSource acc l src = acc := by simp [addSource, hlk, hsrc]
        rw [hstep]
        obtain ⟨ihk, ihm⟩ := ih acc hk
        refine ⟨ihk, ?_⟩
        intro x w' hm
        obtain ⟨w₀, hm₀, hiff, hnd⟩ := ihm x w' hm
        refine ⟨w₀, hm₀, ?_, hnd⟩
        intro s
        rw [hiff s]
        by_cases hxl : x = l
        · subst hxl
          have hw₀ : w₀ = w := by
            have h2 := lookupG_of_mem hk hm₀
            rw [hlk] at h2
            exact (Option.some.inj h2).symm
          constructor
          · rintro (hs | ⟨rfl, hmem⟩)
            · exact Or.inl hs
            · exact Or.inr ⟨rfl, List.mem_cons_of_mem _ hmem⟩
          · rintro (hs | ⟨rfl, hmem⟩)
            · exact Or.inl hs
            · exact Or.inl (by rw [hw₀]; exact hsrc)
        · constructor
          · rintro (hs | ⟨rfl, hmem⟩)
            · exact Or.inl hs
            · exact Or.inr ⟨rfl, List.mem_cons_of_mem _ hmem⟩
          · rintro (hs | ⟨rfl, hmem⟩)
            · exact Or.inl hs
            · rcases List.mem_cons.mp hmem with rfl | hmem
              · exact absurd rfl hxl
              · exact Or.inr ⟨rfl, hmem⟩
      · have hstep : addSource acc l src = setVal acc l (w ++ [src]) := by
          simp [addSource, hlk, hsrc]
        rw [hstep]
        have hk' : (keys (setVal acc l (w ++ [src]))).Nodup := by
          rw [keys_setVal]; exact hk
        obtain ⟨ihk, ihm⟩ := ih _ hk'
        rw [keys_setVal] at ihk
        refine ⟨ihk, ?_⟩
        intro x w' hm
        obtain ⟨w₁, hm₁, hiff, hnd⟩ := ihm x w' hm
        rcases (mem_setVal hk).mp hm₁ with ⟨hxl, hm₀⟩ | ⟨hxl, rfl, hmem⟩
        · refine ⟨w₁, hm₀, ?_, hnd⟩
          intro s
          rw [hiff s]
          constructor
          · rintro (hs | ⟨rfl, hmem2⟩)
            · exact Or.inl hs
            · exact Or.inr ⟨rfl, List.mem_cons_of_mem _ hmem2⟩
          · rintro (hs | ⟨rfl, hmem2⟩)
            · exact Or.inl hs
            · rcases List.mem_cons.mp hmem2 with rfl | hmem2
              · exact absurd rfl hxl
              · exact Or.inr ⟨rfl, hmem2⟩
        · subst hxl
          refine ⟨w, lookupG_mem hlk, ?_, ?_⟩
          · intro s
            rw [hiff s]
            constructor
            · rintro (hs | ⟨rfl, hmem2⟩)
              · rcases List.mem_append.mp hs with hs | hs
                · exact Or.inl hs
                · rcases List.mem_singleton.mp hs with rfl
                  exact Or.inr ⟨rfl, List.mem_cons_self _ _⟩
              · exact Or.inr ⟨rfl, List.mem_cons_of_mem _ hmem2⟩
            · rintro (hs | ⟨rfl, hmem2⟩)
              · exact Or.inl (List.mem_append_left _ hs)
              · exact Or.inl (List.mem_append_right _ (List.mem_singleton_self _))
          · intro hwnd
            apply hnd
            simp [List.nodup_append, hwnd, hsrc]

theorem buildFold_spec :
    ∀ (post : List (Name × List Name)) (acc : Graph), (keys acc).Nodup →
      keys (post.foldl (fun acc2 p => p.2.foldl (fun a m => addSource a m p.1) acc2) acc)
          = keys acc
        ∧ ∀ x w',
            (x, w') ∈ post.foldl (fun acc2 p => p.2.foldl (fun a m => addSource a m p.1) acc2) acc →
            ∃ w₀, (x, w₀) ∈ acc
              ∧ (∀ s, s ∈ w' ↔ s ∈ w₀ ∨ ∃ ls, (s, ls) ∈ post ∧ x ∈ ls)
              ∧ (w₀.Nodup → w'.Nodup) := by
  intro post
  induction post with
  | nil =>
    intro acc _
    refine ⟨rfl, ?_⟩
    intro x w' hm
    exact ⟨w', hm, fun s => by simp, fun h => h⟩
  | cons q rest ih =>
    obtain ⟨src, ls⟩ := q
    intro acc hk
    rw [List.foldl_cons]
    obtain ⟨hkeys1, hspec1⟩ := addTargets_spec src ls acc hk
    have hk1 : (keys (ls.foldl (fun a m => addSource a m src) acc)).Nodup := by
      rw [hkeys1]; exact hk
    obtain ⟨hkeys2, hspec2⟩ := ih _ hk1
    refine ⟨by rw [hkeys2, hkeys1], ?_⟩
    intro x w' hm
    obtain ⟨w₁, hm₁, hiff₁, hnd₁⟩ := hspec2 x w' hm
    obtain ⟨w₀, hm₀, hiff₀, hnd₀⟩ := hspec1 x w₁ hm₁
    refine ⟨w₀, hm₀, ?_, fun h => hnd₁ (hnd₀ h)⟩
    intro s
    rw [hiff₁ s]
    constructor
    · rintro (hs | ⟨ls', hls', hx⟩)
      · rcases (hiff₀ s).mp hs with hs | ⟨rfl, hx⟩
        · exact Or.inl hs
        · exact Or.inr ⟨ls, List.mem_cons_self _ _, hx⟩
      · exact Or.inr ⟨ls', List.mem_cons_of_mem _ hls', hx⟩
    · rintro (hs | ⟨ls', hls', hx⟩)
      · exact Or.inl ((hiff₀ s).mpr (Or.inl hs))
      · rcases List.mem_cons.mp hls' with heq | hls'
        · cases heq
          exact Or.inl ((hiff₀ _).mpr (Or.inr ⟨rfl, hx⟩))
        · exact Or.inr ⟨ls', hls', hx⟩

theorem buildLinkFrom_entries {lt : Graph} (hk : (keys lt).Nodup) :
    ∀ x w', (x, w') ∈ buildLinkFrom lt →
      (∀ s, s ∈ w' ↔ hasEdge lt s x) ∧ w'.Nodup := by
  intro x w' hm
  rw [buildLinkFrom] at hm
  obtain ⟨hkeys, hspec⟩ := buildFold_spec lt (initLinkFrom lt)
    (by rw [keys_initLinkFrom hk]; exact hk)
  obtain ⟨w₀, hm₀, hiff, hnd⟩ := hspec x w' hm
  have hw₀ : w₀ = [] := by
    rw [initLinkFrom_eq hk, List.mem_map] at hm₀
    obtain ⟨q, -, heq⟩ := hm₀
    exact (congrArg Prod.snd heq).symm
  subst hw₀
  constructor
  · intro s
    rw [hiff s]
    simp only [List.not_mem_nil, false_or]
    constructor
    · rintro ⟨ls, hls, hx⟩
      exact ⟨ls, lookupG_of_mem hk hls, hx⟩
    · rintro ⟨ls, hls, hx⟩
      exact ⟨ls, lookupG_mem hls, hx⟩
  · exact hnd List.nodup_nil

theorem initial_inv {g : Graph} (hk : (keys g).Nodup) :
    OrderInv g (seedReady (buildLinkFrom g))
      (removeKeys (buildLinkFrom g) (seedReady (buildLinkFrom g))) [] := by
  have hkl : (keys (buildLinkFrom g)).Nodup := by rw [keys_buildLinkFrom hk]; exact hk
  refine ⟨?_, ?_, ?_, ?_, ?_, ?_, ?_⟩
  · have hseed := removeKeys_mkeys hkl (seedReady_nodup hkl)
      (fun n hn => seedReady_mem_keys hn)
    have hnil : ((List.nil : List Name) : Multiset Name) = 0 := rfl
    rw [hnil, zero_add, hseed, mkeys, keys_buildLinkFrom hk]
  · exact nodup_keys_removeKeys hkl
  · intro x w hm s
    have hm0 : (x, w) ∈ buildLinkFrom g := mem_removeKeys_sub hm
    rw [(buildLinkFrom_entries hk x w hm0).1 s]
    simp
  · intro x w hm
    exact (buildLinkFrom_entries hk x w (mem_removeKeys_sub hm)).2
  · intro x w hm hweq
    subst hweq
    have hm0 : (x, []) ∈ buildLinkFrom g := mem_removeKeys_sub hm
    have hseed : x ∈ seedReady (buildLinkFrom g) := mem_seedReady_of_empty hm0
    exact not_mem_keys_removeKeys hkl hseed (mem_keys_of_mem hm)
  · intro b hb s hedge
    have hentry := seedReady_entry hb
    have hchar := (buildLinkFrom_entries hk b [] hentry).1 s
    exact absurd (hchar.mpr hedge) (List.not_mem_nil s)
  · intro a b _ hb
    exact absurd hb (List.not_mem_nil b)

theorem exists_cycle {R : Name → Name → Prop} (S : List Name) (hne : S ≠ [])
    (h : ∀ x ∈ S, ∃ y, y ∈ S ∧ R y x) : ∃ n, Relation.TransGen R n n := by
  obtain ⟨x₀, hx₀⟩ := List.exists_mem_of_ne_nil S hne
  classical
  let f : {x // x ∈ S} → {x // x ∈ S} := fun z =>
    ⟨(h z.1 z.2).choose, (h z.1 z.2).choose_spec.1⟩
  have hf : ∀ z : {x // x ∈ S}, R (f z).1 z.1 := fun z => (h z.1 z.2).choose_spec.2
  let g : Nat → {x // x ∈ S} := fun k => f^[k] ⟨x₀, hx₀⟩
  have hg : ∀ k, R (g (k + 1)).1 (g k).1 := by
    intro k
    have hit : g (k + 1) = f (g k) := Function.iterate_succ_apply' f k _
    rw [hit]
    exact hf (g k)
  have hchain : ∀ i j, i < j → Relation.TransGen R (g j).1 (g i).1 := by
    intro i j hij
    induction j with
    | zero => omega
    | succ j ihj =>
      rcases Nat.lt_succ_iff_lt_or_eq.mp hij with hlt | heq
      · exact Relation.TransGen.head (hg j) (ihj hlt)
      · subst heq
        exact Relation.TransGen.single (hg i)
  have hcard : S.toFinset.card < (Finset.range (S.toFinset.card + 1)).card := by simp
  have hmaps : ∀ k ∈ Finset.range (S.toFinset.card + 1), (g k).1 ∈ S.toFinset := by
    intro k _
    rw [List.mem_toFinset]
    exact (g k).2
  obtain ⟨i, hi, j, hj, hij, heq⟩ :=
    Finset.exists_ne_map_eq_of_card_lt_of_maps_to hcard hmaps
  rcases Nat.lt_or_ge i j with hlt | hge
  · have hc := hchain i j hlt
    rw [← heq] at hc
    exact ⟨(g i).1, hc⟩
  · have hlt : j < i := by omega
    have hc := hchain j i hlt
    rw [heq] at hc
    exact ⟨(g j).1, hc⟩

theorem orderLoop_acyclic (lt : Graph) (hv : ∀ p ∈ lt, p.2.Nodup) (hacyc : Acyclic lt) :
    ∀ fuel ready lf ordered, ready.length + lf.length < fuel →
      OrderInv lt ready lf ordered →
      (orderLoop lt fuel ready lf ordered).2 = []
        ∧ ∀ a b, hasEdge lt a b → b ∈ (orderLoop lt fuel ready lf ordered).1 →
            before (orderLoop lt fuel ready lf ordered).1 a b := by
  intro fuel
  induction fuel with
  | zero => intro ready lf ordered h _; exact absurd h (Nat.not_lt_zero _)
  | succ fuel ih =>
    intro ready lf ordered hfuel inv
    rw [orderLoop]
    split
    · next name hl =>
      have hdec := getLast?_decomp hl
      have hlen : ready.length = ready.dropLast.length + 1 := by
        conv_lhs => rw [hdec]
        simp
      have hmeas : (processLinks lt name lf ready.dropLast).2.length
          + (processLinks lt name lf ready.dropLast).1.length < fuel := by
        rw [processLinks_length]; omega
      exact ih _ _ _ hmeas (orderStep_inv hv inv hl)
    · next hl =>
      have hready : ready = [] := List.getLast?_eq_none_iff.mp hl
      subst hready
      have hlf : lf = [] := by
        by_contra hne
        have hSne : keys lf ≠ [] := by
          intro h0
          apply hne
          cases lf with
          | nil => rfl
          | cons p t => simp [keys] at h0
        have hpred : ∀ x ∈ keys lf, ∃ y, y ∈ keys lf ∧ hasEdge lt y x := by
          intro x hx
          obtain ⟨w, hw⟩ := exists_entry_of_mem_keys hx
          have hwne := inv.wne x w hw
          obtain ⟨s, hs⟩ := List.exists_mem_of_ne_nil w hwne
          obtain ⟨hedge, hnord⟩ := (inv.wchar x w hw s).mp hs
          refine ⟨s, ?_, hedge⟩
          have hskeys : s ∈ keys lt := hasEdge_source_mem hedge
          have hmem : s ∈ ((ordered : Multiset Name)
              + (([] : List Name) : Multiset Name) + mkeys lf) := by
            rw [inv.perm]
            exact Multiset.mem_coe.mpr hskeys
          simp only [Multiset.mem_add, Multiset.mem_coe, mkeys] at hmem
          rcases hmem with (hmem | hmem) | hmem
          · exact absurd hmem hnord
          · simp at hmem
          · exact hmem
        obtain ⟨n, hcyc⟩ := exists_cycle (keys lf) hSne hpred
        exact hacyc n hcyc
      subst hlf
      have hfp : findPriority ([] : Graph) = none := rfl
      rw [hfp]
      exact ⟨rfl, fun a b hedge hb => inv.ord a b hedge hb⟩

/-- Claim C2: for every acyclic well-formed link graph, the sequence
returned by `order_graph` respects every edge as a points-after
constraint: for every edge A→B of the graph, A appears strictly before B
in the output sequence. -/
theorem order_graph_respects_edges (g : Graph) (hw : WFGraph g) (hacyc : Acyclic g) :
    ∀ a b, hasEdge g a b → before (order_graph g) a b := by
  obtain ⟨hk, hv, hc⟩ := hw
  have hdef : orderState g = orderLoop g ((seedReady (buildLinkFrom g)).length
      + (removeKeys (buildLinkFrom g) (seedReady (buildLinkFrom g))).length + 1)
      (seedReady (buildLinkFrom g)) (removeKeys (buildLinkFrom g) (seedReady (buildLinkFrom g)))
      [] := rfl
  have hmain := orderLoop_acyclic g hv hacyc _ _ _ _ (Nat.lt_succ_self _) (initial_inv hk)
  rw [← hdef] at hmain
  intro a b hedge
  have hb_keys : b ∈ keys g := by
    obtain ⟨ls, hlk, hbls⟩ := hedge
    exact hc (a, ls) (lookupG_mem hlk) b hbls
  have hend := orderState_mkeys hk
  rw [hmain.1] at hend
  have hb1 : b ∈ (orderState g).1 := by
    have hz : mkeys ([] : Graph) = 0 := rfl
    rw [hz, add_zero] at hend
    have hmb : b ∈ ((orderState g).1 : Multiset Name) := by
      rw [hend]
      exact Multiset.mem_coe.mpr hb_keys
    exact Multiset.mem_coe.mp hmb
  have hb2 := hmain.2 a b hedge hb1
  rw [order_graph, hmain.1]
  have hsn : sortNames (keys ([] : Graph)) = [] := rfl
  rw [hsn, List.append_nil]
  exact hb2

/-- Witness for C2 on the acyclic graph with the single edge a → b. -/
theorem order_graph_respects_edges_witness :
    WFGraph [("a", ["b"]), ("b", [])]
      ∧ hasEdge [("a", ["b"]), ("b", [])] "a" "b"
      ∧ before (order_graph [("a", ["b"]), ("b", [])]) "a" "b" := by
  have hstep : ∀ x y : Name, hasEdge [("a", ["b"]), ("b", [])] x y → x = "a" ∧ y = "b" := by
    intro x y h
    obtain ⟨ls, hlk, hy⟩ := h
    simp only [lookupG] at hlk
    split at hlk
    · next hax =>
      cases hlk
      refine ⟨hax.symm, ?_⟩
      simpa using hy
    · split at hlk
      · next hbx =>
        cases hlk
        simp at hy
      · cases hlk
  have hacyc : Acyclic [("a", ["b"]), ("b", [])] := by
    have htrans : ∀ x y : Name, Relation.TransGen (hasEdge [("a", ["b"]), ("b", [])]) x y →
        (if x = "b" then (1 : Nat) else 0) < (if y = "b" then (1 : Nat) else 0) := by
      intro x y h
      induction h with
      | single h1 =>
        obtain ⟨hx, hy⟩ := hstep _ _ h1
        subst hx
        subst hy
        decide
      | tail hr h2 ih =>
        obtain ⟨hx, hy⟩ := hstep _ _ h2
        rw [hx] at ih
        simp at ih
    intro n hcyc
    exact lt_irrefl _ (htrans n n hcyc)
  exact ⟨by decide, ⟨["b"], by decide, by decide⟩,
    order_graph_respects_edges [("a", ["b"]), ("b", [])] (by decide) hacyc "a" "b"
      ⟨["b"], by decide, by decide⟩⟩

/-! ### Claims C7-C9: link extraction from passage text -/

/-- Claim C8: click-macro extraction.  `<<click "X">>` yields "X";
`<<click [[A|B]]>>` recurses into bracketed-link parsing and yields "B";
`<<click "Label" "X">>` takes the last of the two arguments, quotes
stripped, and yields "X". -/
theorem find_links_click_cases :
    find_links_in_macroSeg "<<click \"X\">>".toList = some ["X".toList]
      ∧ find_links_in_macroSeg "<<click [[A|B]]>>".toList = some ["B".toList]
      ∧ find_links_in_macroSeg "<<click \"Label\" \"X\">>".toList = some ["X".toList] :=
  ⟨by decide, by decide, by decide⟩

/-- Counterexample to claim C7: an unterminated `[[` does not truncate
the whole body's link extraction.  In the single-line body
`a [[broken <<click "y">> b` the link opener `[[` (at index 2) has no
later `]]` anywhere in the body, yet extraction still yields "y" from the
macro segment that lies after the marker — the unterminated `[[` ends only
the current plain-text segment's scan. -/
theorem find_links_after_unterminated_link :
    pyFind (joinLines ["a [[broken <<click \"y\">> b".toList]) ('[' :: '[' :: []) 0 = some 2
      ∧ pyFind (joinLines ["a [[broken <<click \"y\">> b".toList]) (']' :: ']' :: []) 2 = none
      ∧ find_links ["a [[broken <<click \"y\">> b".toList] = some ["y".toList] := by decide

/-- Claim C7, amended: an unterminated span is reported, not fatal, and
truncates the scan in which it occurs.  A macro opener `<<` with no later
`>>` ends the splitting of the remainder of the body: everything from the
opener on is dropped, so no links come from any text after it.  A link
opener `[[` with no later `]]` ends link extraction of the current
plain-text segment only: no further links come from that segment, but
links are still extracted from later macro segments of the same body
(shown concretely), and processing continues normally. -/
theorem find_links_truncates_unterminated :
    (∀ (t : List Char) (pos fuel start : Nat),
        pyFind t ('[' :: '[' :: []) pos = some start →
        pyFind t (']' :: ']' :: []) start = none →
        find_links_in_textAux t (fuel + 1) pos = [])
      ∧ (∀ (b : List Char) (pos fuel start : Nat),
          pyFind b ('<' :: '<' :: []) pos = some start →
          pyFind b ('>' :: '>' :: []) start = none →
          split_bodyAux b (fuel + 1) pos
            = if pos < start then [pySlice b pos start] else [])
      ∧ find_links ["a [[x]] b [[broken".toList] = some ["x".toList]
      ∧ find_links ["see <<click \"y\">> and <<broken".toList] = some ["y".toList]
      ∧ find_links ["x [[oops <<display \"z\">>".toList] = some ["z".toList] := by
  refine ⟨?_, ?_, by decide, by decide, by decide⟩
  · intro t pos fuel start h1 h2
    simp only [find_links_in_textAux, h1, h2]
  · intro b pos fuel start h1 h2
    have hpos : pos < b.length := by
      by_contra hge
      push_neg at hge
      have hdrop : b.drop pos = [] := List.drop_eq_nil_of_le hge
      rw [pyFind, hdrop] at h1
      simp [findSub] at h1
    rw [split_bodyAux, if_pos hpos]
    simp only [h1, h2]

/-- Witness for C7: a text with one closed and one unterminated link span. -/
theorem find_links_truncates_unterminated_witness :
    pyFind "ab [[cd".toList ('[' :: '[' :: []) 0 = some 3
      ∧ pyFind "ab [[cd".toList (']' :: ']' :: []) 3 = none
      ∧ find_links_in_textAux "ab [[cd".toList (5 + 1) 0 = []
      ∧ pyFind "x<<y".toList ('<' :: '<' :: []) 0 = some 1
      ∧ pyFind "x<<y".toList ('>' :: '>' :: []) 1 = none
      ∧ split_bodyAux "x<<y".toList (7 + 1) 0
          = if 0 < 1 then [pySlice "x<<y".toList 0 1] else [] :=
  ⟨by decide, by decide,
    find_links_truncates_unterminated.1 "ab [[cd".toList 0 5 3 (by decide) (by decide),
    by decide, by decide,
    find_links_truncates_unterminated.2.1 "x<<y".toList 0 7 1 (by decide) (by decide)⟩

/-- Counterexample to claim C9: the empty macro `<<>>` aborts extraction
(`name, *args = []` raises), yet none of the claim's enumerated conditions
holds for it — it is neither a display macro with an unquoted first
argument nor a click macro at all. -/
theorem find_links_macro_fail_unlisted :
    find_links_in_macroSeg "<<>>".toList = none
      ∧ failsAsClaimed "<<>>".toList = false := by decide

/-- Claim C9, amended: on a `<<`/`>>`-delimited macro segment, extraction
fails loudly exactly when the display/click argument-shape conditions of
the claim hold (`failsAsClaimed`), or additionally when the macro contains
no tokens at all between the delimiters (empty or whitespace-only macro),
which crashes tuple unpacking before any macro name is known. -/
theorem find_links_macro_fail_iff :
    ∀ mseg : List Char,
      ('<' :: '<' :: []).isPrefixOf mseg → ('>' :: '>' :: []).isSuffixOf mseg →
      (find_links_in_macroSeg mseg = none
        ↔ (failsAsClaimed mseg = true
            ∨ macroArgs ((mseg.drop 2).dropLast.dropLast) = [])) := by
  intro mseg hpre hsuf
  rw [find_links_in_macroSeg, if_pos ⟨hpre, hsuf⟩, failsAsClaimed]
  cases hargs : macroArgs ((mseg.drop 2).dropLast.dropLast) with
  | nil => simp
  | cons name args =>
    simp only [reduceCtorEq, or_false]
    by_cases hd : name = displayTok
    · subst hd
      rw [if_pos rfl, if_pos rfl]
      cases args with
      | nil => simp
      | cons a0 rest =>
        cases hq : quotedTok a0 with
        | true => simp [hq]
        | false => simp [hq]
    · rw [if_neg hd, if_neg hd]
      by_cases hc : name = clickTok
      · subst hc
        rw [if_pos rfl, if_pos rfl]
        cases args with
        | nil => simp
        | cons a0 rest =>
          by_cases hb : a0.head? = some '['
          · simp [hb]
          · cases rest with
            | nil =>
              cases hq : quotedTok a0 with
              | true => simp [hb, hq]
              | false => simp [hb, hq]
            | cons a1 rest2 =>
              cases rest2 with
              | nil =>
                cases hq : quotedTok a1 with
                | true => simp [hb, hq]
                | false => simp [hb, hq]
              | cons a2 rest3 => simp [hb]
      · rw [if_neg hc, if_neg hc]
        simp

/-- Witness for the amended C9 at the malformed macro `<<display X>>`. -/
theorem find_links_macro_fail_iff_witness :
    ('<' :: '<' :: []).isPrefixOf "<<display X>>".toList
      ∧ ('>' :: '>' :: []).isSuffixOf "<<display X>>".toList
      ∧ (find_links_in_macroSeg "<<display X>>".toList = none
          ↔ (failsAsClaimed "<<display X>>".toList = true
              ∨ macroArgs (("<<display X>>".toList.drop 2).dropLast.dropLast) = [])) :=
  ⟨by decide, by decide,
    find_links_macro_fail_iff "<<display X>>".toList (by decide) (by decide)⟩

end Splitter
